import Mathlib

set_option maxRecDepth 16000

/-!
Verification of the kaos-fibo compression core.

The Python sources under `backend/algorithms/` (Fibonacci/Zeckendorf coding,
Huffman coding, LZW coding) and the comparative-analysis slice of
`backend/app.py` are shallowly embedded below.  Python binary strings of
'0'/'1' characters are `List Char`; Python ints are `Int` (or `Nat` where the
source value is manifestly non-negative); `raise ValueError` is
`Except.error`; Python dicts are association lists in insertion order.
-/

namespace KaosFibo

/-! ## Fibonacci (Zeckendorf) codec — `fibonacci_coding.py` -/

/-- The ascending Fibonacci variant used by the codec: 1, 2, 3, 5, 8, ... -/
def fibSeq : Nat → Nat
  | 0 => 1
  | 1 => 2
  | n + 2 => fibSeq n + fibSeq (n + 1)

/-- Loop of `generate_fibs` (`while a <= n: fibs.append(a); a, b = b, a + b`),
with explicit fuel bounding the number of iterations. -/
def genFibsle : Nat → Nat → Nat → Nat → List Nat
  | 0, _, _, _ => []
  | fuel + 1, n, a, b => if a ≤ n then a :: genFibsle fuel n b (a + b) else []

/-- `generate_fibs(n)`: the Fibonacci numbers (1, 2, 3, 5, ...) that are ≤ n.
Since consecutive `a` values increase by at least one per iteration, `n + 1`
units of fuel always suffice for the `while` loop. -/
def generate_fibs (n : Nat) : List Nat :=
  if n < 1 then [] else genFibsle (n + 1) n 1 2

/-- The greedy Zeckendorf selection loop of `fib_encode`, processing the
Fibonacci list from the largest value down (the reversed `fibs` list); it
returns the bits in that (descending) order together with the final
remainder.  The `0 < r` test mirrors the loop condition
`while remainder > 0 and i >= 0`; once the remainder hits 0 the remaining
positions keep their initial '0'. -/
def zeckGreedy : List Nat → Nat → List Char × Nat
  | [], r => ([], r)
  | f :: fs, r =>
    if 0 < r then
      if f ≤ r then
        let p := zeckGreedy fs (r - f)
        ('1' :: p.1, p.2)
      else
        let p := zeckGreedy fs r
        ('0' :: p.1, p.2)
    else
      (List.replicate (f :: fs).length '0', r)

/-- `fib_encode(n)`: the Fibonacci codeword of a positive integer, as the
character list of the Python binary string.  The greedy loop walks the
`fibs` list from index `len - 1` down to 0, so it is applied to the reversed
list and its bits are reversed back into ascending-index order; a literal
'1' terminator is appended. -/
def fib_encode (n : Int) : Except String (List Char) :=
  if n ≤ 0 then .error "Only positive integers can be encoded."
  else
    let fibs := generate_fibs n.toNat
    if fibs = [] then .ok ['1', '1']
    else .ok ((zeckGreedy fibs.reverse n.toNat).1.reverse ++ ['1'])

/-- The Fibonacci regeneration loop of `fib_decode`
(`for _ in range(length)` starting from `a, b = 1, 2`). -/
def genFibsCount : Nat → Nat → Nat → List Nat
  | 0, _, _ => []
  | k + 1, a, b => a :: genFibsCount k b (a + b)

/-- The accumulation loop of `fib_decode`: sum the Fibonacci numbers at the
positions whose bit is '1'. -/
def sumBits : List Char → List Nat → Nat
  | c :: cs, f :: fs => (if c = '1' then f else 0) + sumBits cs fs
  | _, _ => 0

/-- `fib_decode(code)`: decode a Fibonacci codeword back to its integer. -/
def fib_decode (code : List Char) : Except String Int :=
  if code.length < 2 then .error "Invalid Fibonacci code: too short"
  else if code.reverse.take 2 ≠ ['1', '1'] then
    .error "Invalid Fibonacci code: must end with 11"
  else
    let stripped := code.dropLast
    if stripped = [] then .ok 1
    else .ok (sumBits stripped (genFibsCount stripped.length 1 2) : Nat)

/-- The per-element loop of `compress_dataset`.  At type `Int` the Python
guard `not isinstance(num, int) or num <= 0` reduces to `num <= 0`. -/
def compressLoop : List Int → Except String (List Char)
  | [] => .ok []
  | num :: rest =>
    if num ≤ 0 then
      .error "Invalid number in dataset. Only positive integers supported."
    else do
      let encoded ← fib_encode num
      let tail ← compressLoop rest
      .ok (encoded ++ tail)

/-- `compress_dataset(numbers)`: concatenation of the Fibonacci codewords. -/
def compress_dataset (numbers : List Int) : Except String (List Char) :=
  if numbers = [] then .ok [] else compressLoop numbers

/-- The terminator scan of `decompress_dataset`: starting from position `i`
the inner loop looks at positions `j = i+1, i+2, ...` for the first pair
`compressed_string[j-1:j+1] == '11'`; this splits the stream into the first
codeword (terminator included) and the rest.  `none` when no '11' pair
occurs before the stream ends. -/
def splitCodeword : List Char → Option (List Char × List Char)
  | [] => none
  | a :: t =>
    match t with
    | [] => none
    | b :: t' =>
      if a = '1' ∧ b = '1' then some ([a, b], t')
      else (splitCodeword t).map fun p => (a :: p.1, p.2)

/-- The outer scanning loop of `decompress_dataset`; `fuel` bounds the number
of decoded codewords (each consumes at least two characters, so the stream
length always suffices).  A nonempty remainder without any terminator is the
`StreamCorrupt` error of the source. -/
def decompLoop : Nat → List Char → Except String (List Int)
  | _, [] => .ok []
  | 0, _ :: _ => .error "fuel exhausted"
  | fuel + 1, s =>
    match splitCodeword s with
    | none => .error "Invalid compressed data: no terminator found"
    | some (cw, rest) => do
      let number ← fib_decode cw
      let numbers ← decompLoop fuel rest
      .ok (number :: numbers)

/-- `decompress_dataset(compressed_string, count)`: the empty stream returns
`[]` at once (before any count validation); otherwise the stream is scanned
codeword by codeword and the decoded count is checked against `count`. -/
def decompress_dataset (compressed_string : List Char) (count : Nat) :
    Except String (List Int) :=
  if compressed_string = [] then .ok []
  else do
    let numbers ← decompLoop compressed_string.length compressed_string
    if numbers.length = count then .ok numbers
    else .error "Count mismatch between expected and decoded numbers"

/-- The greedy loop input of `fib_encode` in processing order: the first `m`
Fibonacci values, largest first. -/
def descFibs (m : Nat) : List Nat :=
  ((List.range m).map fibSeq).reverse

/-- Whether a character list contains two adjacent '1' characters. -/
def hasAdj11 : List Char → Bool
  | [] => false
  | a :: t =>
    match t with
    | [] => false
    | b :: _ => (decide (a = '1') && decide (b = '1')) || hasAdj11 t

/-! ## Rational-input twins of the Fibonacci encoder.

Python is dynamically typed: `fib_encode` accepts any number and its body
then runs unchanged over it (only `compress_dataset` has an `isinstance`
check).  The following definitions transcribe the same source over exact
rational values; the float `2.5` and every operation the code applies to it
are exact, so the rational run is the float run. -/

/-- `generate_fibs` over a rational limit; the appended values `a` stay
integers.  `num + 1` units of fuel suffice (`n ≤ n.num` for `1 ≤ n`). -/
def genFibsleQ : Nat → Rat → Nat → Nat → List Nat
  | 0, _, _, _ => []
  | fuel + 1, n, a, b =>
    if (a : Rat) ≤ n then a :: genFibsleQ fuel n b (a + b) else []

/-- `generate_fibs(n)` at a rational argument. -/
def generate_fibs_rat (n : Rat) : List Nat :=
  if n < 1 then [] else genFibsleQ (n.num.toNat + 1) n 1 2

/-- The greedy selection loop of `fib_encode` at a rational remainder. -/
def zeckGreedyQ : List Nat → Rat → List Char × Rat
  | [], r => ([], r)
  | f :: fs, r =>
    if 0 < r then
      if (f : Rat) ≤ r then
        let p := zeckGreedyQ fs (r - f)
        ('1' :: p.1, p.2)
      else
        let p := zeckGreedyQ fs r
        ('0' :: p.1, p.2)
    else
      (List.replicate (f :: fs).length '0', r)

/-- `fib_encode(n)` at a rational (e.g. float) argument: the body of the
source run over a non-integer number. -/
def fib_encode_rat (n : Rat) : Except String (List Char) :=
  if n ≤ 0 then .error "Only positive integers can be encoded."
  else
    let fibs := generate_fibs_rat n
    if fibs = [] then .ok ['1', '1']
    else .ok ((zeckGreedyQ fibs.reverse n).1.reverse ++ ['1'])

/-! ## Huffman codec — `huffman_coding.py` -/

/-- `HuffmanNode`: leaves hold a value and its frequency, internal nodes a
combined frequency and two children (the constructor is only ever called
with either a value or both children). -/
inductive HuffmanNode where
  | leaf (freq : Nat) (value : Int)
  | node (freq : Nat) (left right : HuffmanNode)

def HuffmanNode.freq : HuffmanNode → Nat
  | .leaf f _ => f
  | .node f _ _ => f

/-- `heapq.heappop` modelled by its contract: remove and return a node of
minimal frequency (`HuffmanNode.__lt__` compares frequencies only, so
equal-frequency ties are implementation defined; this model pops the
earliest minimal-frequency node). -/
def popMin : List HuffmanNode → Option (HuffmanNode × List HuffmanNode)
  | [] => none
  | x :: xs =>
    match popMin xs with
    | none => some (x, [])
    | some (m, rest) =>
      if x.freq ≤ m.freq then some (x, xs) else some (m, x :: rest)

/-- The merge loop of `build_huffman_tree` (`while len(heap) > 1`), with
fuel bounding the number of merges; each merge shrinks the heap by one
node, so the initial heap length always suffices.  `heapq.heappush` is
modelled as insertion (position is irrelevant to `popMin`). -/
def buildLoop : Nat → List HuffmanNode → Option HuffmanNode
  | _, [] => none
  | _, [x] => some x
  | 0, _ :: _ :: _ => none
  | fuel + 1, heap =>
    match popMin heap with
    | none => none
    | some (l, heap₁) =>
      match popMin heap₁ with
      | none => none
      | some (r, heap₂) =>
        buildLoop fuel (heap₂ ++ [.node (l.freq + r.freq) l r])

/-- `build_huffman_tree(frequencies)`; `heapq.heapify` only permutes the
node array, which `popMin` is insensitive to. -/
def build_huffman_tree (frequencies : List (Int × Nat)) : Option HuffmanNode :=
  if frequencies = [] then none
  else buildLoop frequencies.length
    (frequencies.map fun p => HuffmanNode.leaf p.2 p.1)

/-- The recursive `traverse` of `build_codebook`: '0' on the left edge, '1'
on the right edge; a leaf reached with the empty code (single-node tree)
gets the code "0".  Entries are collected in traversal order, matching the
insertion order of the Python dict. -/
def build_codebook_aux : HuffmanNode → List Char → List (Int × List Char)
  | .leaf _ v, code => [(v, if code = [] then ['0'] else code)]
  | .node _ l r, code =>
    build_codebook_aux l (code ++ ['0']) ++ build_codebook_aux r (code ++ ['1'])

/-- `build_codebook(root)` (`root = None` gives the empty codebook). -/
def build_codebook : Option HuffmanNode → List (Int × List Char)
  | none => []
  | some root => build_codebook_aux root []

/-- The leaf values of a Huffman tree, left to right. -/
def leafVals : HuffmanNode → List Int
  | .leaf _ v => [v]
  | .node _ l r => leafVals l ++ leafVals r

/-- The leaf values carried by a whole heap of nodes. -/
def heapVals (heap : List HuffmanNode) : List Int :=
  (heap.map leafVals).flatten

/-- Two codebook entries are incomparable: neither code is a prefix
(proper or not) of the other. -/
def cbIncomp (e₁ e₂ : Int × List Char) : Prop :=
  (∀ t, e₂.2 ≠ e₁.2 ++ t) ∧ (∀ t, e₁.2 ≠ e₂.2 ++ t)

/-- `collections.Counter` on a list: a frequency table keyed in
first-occurrence order. -/
def counter (numbers : List Int) : List (Int × Nat) :=
  numbers.foldl (fun acc x =>
    if acc.any fun p => decide (p.1 = x) then
      acc.map fun p => if p.1 = x then (p.1, p.2 + 1) else p
    else acc ++ [(x, 1)]) []

/-- Codebook access `codebook[num]`; every access performed by
`huffman_compress` is proven to be present, so the `none` default is never
reached. -/
def cbGet (codebook : List (Int × List Char)) (num : Int) : List Char :=
  match codebook.find? fun p => decide (p.1 = num) with
  | some p => p.2
  | none => []

/-- `huffman_compress(numbers)`. -/
def huffman_compress (numbers : List Int) : List Char :=
  if numbers = [] then []
  else
    let frequencies := counter numbers
    if frequencies.length = 1 then List.replicate numbers.length '0'
    else
      let root := build_huffman_tree frequencies
      let codebook := build_codebook root
      (numbers.map (cbGet codebook)).flatten

/-- Inverse-codebook lookup `current_code in codebook_inverted`. -/
def invGet (inv : List (List Char × Int)) (code : List Char) : Option Int :=
  (inv.find? fun p => decide (p.1 = code)).map Prod.snd

/-- The bit loop of `huffman_decompress`: accumulate bits in
`current_code`, emit the matched symbol and clear the buffer on an exact
codebook match, and `break` once `count` symbols were emitted. -/
def hdLoop (inv : List (List Char × Int)) (count : Nat) :
    List Char → List Char → List Int → List Int
  | [], _, numbers => numbers
  | bit :: bits, current_code, numbers =>
    let current := current_code ++ [bit]
    match invGet inv current with
    | some v =>
      let numbers' := numbers ++ [v]
      if numbers'.length = count then numbers'
      else hdLoop inv count bits [] numbers'
    | none => hdLoop inv count bits current numbers

/-- `huffman_decompress(compressed_string, codebook_inverted, count)`: the
source raises no error — it returns whatever was decoded when the bits run
out (or `count` symbols, whichever happens first). -/
def huffman_decompress (compressed_string : List Char)
    (codebook_inverted : List (List Char × Int)) (count : Nat) : List Int :=
  if compressed_string = [] then []
  else hdLoop codebook_inverted count compressed_string [] []

/-! ## LZW codec — `lzw_coding.py` -/

/-- Membership test `key in dictionary` for the encoder dictionary. -/
def lzwMem (d : List (List Char × Nat)) (k : List Char) : Bool :=
  d.any fun p => decide (p.1 = k)

/-- Encoder dictionary access `dictionary[current]`; every access performed
on compressor inputs is proven present, the default is never reached. -/
def lzwGet (d : List (List Char × Nat)) (k : List Char) : Nat :=
  match d.find? fun p => decide (p.1 = k) with
  | some p => p.2
  | none => 0

/-- The base dictionary `{chr(i): i for i in range(256)}`. -/
def lzwBase : List (List Char × Nat) :=
  (List.range 256).map fun i => ([Char.ofNat i], i)

/-- The encoding loop of `lzw_compress`: `current` is the longest matched
pattern so far, `next_code` the next free code. -/
def lzwLoop : List (List Char × Nat) → Nat → List Char → List Char → List Nat
  | dict, _, current, [] => if current = [] then [] else [lzwGet dict current]
  | dict, next_code, current, ch :: rest =>
    let combined := current ++ [ch]
    if lzwMem dict combined then lzwLoop dict next_code combined rest
    else
      lzwGet dict current ::
        lzwLoop (dict ++ [(combined, next_code)]) (next_code + 1) [ch] rest

/-- `lzw_compress(data)`. -/
def lzw_compress (data : List Char) : List Nat :=
  if data = [] then [] else lzwLoop lzwBase 256 [] data

/-- Membership test `code in dictionary` for the decoder dictionary. -/
def lzwDecMem (d : List (Nat × List Char)) (k : Nat) : Bool :=
  d.any fun p => decide (p.1 = k)

/-- Decoder dictionary access `dictionary[code]`; all accesses on decoder
runs over compressor output are proven present. -/
def lzwDecGet (d : List (Nat × List Char)) (k : Nat) : List Char :=
  match d.find? fun p => decide (p.1 = k) with
  | some p => p.2
  | none => []

/-- The decoder's base dictionary `{i: chr(i) for i in range(256)}`. -/
def lzwDecBase : List (Nat × List Char) :=
  (List.range 256).map fun i => (i, [Char.ofNat i])

/-- The decoding loop of `lzw_decompress` over `codes[1:]`: a known code is
looked up, the code equal to `next_code` takes the self-reference rule
`current + current[0]`, anything else raises.  After each entry the decoder
inserts `current + entry[0]` at `next_code`.  `entry[0]` is modelled by
`headD` with an arbitrary default; every entry is proven nonempty on the
runs the claims are about. -/
def lzwDecLoop : List (Nat × List Char) → Nat → List Char → List Nat →
    Except String (List (List Char))
  | _, _, _, [] => .ok []
  | dict, next_code, current, code :: codes =>
    let entryE : Except String (List Char) :=
      if lzwDecMem dict code then .ok (lzwDecGet dict code)
      else if code = next_code then .ok (current ++ [current.headD 'a'])
      else .error "Invalid LZW code"
    match entryE with
    | .error e => .error e
    | .ok entry =>
      (lzwDecLoop (dict ++ [(next_code, current ++ [entry.headD 'a'])])
        (next_code + 1) entry codes).map (entry :: ·)

/-- `lzw_decompress(codes)`: the first code is looked up directly and
emitted, the rest go through the loop, and the entries are joined. -/
def lzw_decompress (codes : List Nat) : Except String (List Char) :=
  match codes with
  | [] => .ok []
  | c :: rest =>
    let first := lzwDecGet lzwDecBase c
    (lzwDecLoop lzwDecBase 256 first rest).map fun entries =>
      (first :: entries).flatten

/-! ## Comparative analysis — the codec slice of `perform_compression`
(`app.py`) -/

/-- Python `str(n)` of an integer, as a character list. -/
def intStr (n : Int) : List Char := (toString n).data

/-- `','.join(map(str, numbers))`. -/
def joinComma : List Int → List Char
  | [] => []
  | [n] => intStr n
  | n :: rest => intStr n ++ ',' :: joinComma rest

/-- Python `str` of a list of naturals (`[65, 66, 256]`): bracketed with
comma-space separators.  `perform_compression` sizes the LZW output through
`len(str(lzw_compressed)) * 8`. -/
def natStr (n : Nat) : List Char := (toString n).data

/-- The `", ".join` part of the Python list repr. -/
def joinCommaSpace : List Nat → List Char
  | [] => []
  | [n] => natStr n
  | n :: rest => natStr n ++ ',' :: ' ' :: joinCommaSpace rest

/-- Python `str()` of a list of ints (the LZW code list). -/
def listStr (codes : List Nat) : List Char :=
  '[' :: (joinCommaSpace codes ++ [']'])

/-- Python `min` over the remaining (key, size) pairs: keep the incumbent
unless a later value is strictly smaller, so the first key attaining the
minimum wins. -/
def minPair : String × Rat → List (String × Rat) → String × Rat
  | best, [] => best
  | best, p :: rest => minPair (if p.2 < best.2 then p else best) rest

/-- The fields of the `perform_compression` result record that the codec
core determines. -/
structure PerformResult where
  fib_bits : Nat
  huffman_bits : Nat
  lzw_bits : Nat
  is_lossless : Bool
  best_method : String

/-- The codec slice of `perform_compression` in `app.py`.  The Fibonacci
calls are unguarded — a `ValueError` from `compress_dataset` or
`decompress_dataset` propagates out of the function — while the Huffman and
LZW sections are wrapped in `try/except` blocks that replace a failing
codec by zero sizes; the embedded Huffman and LZW codecs are total, so
those except-branches are dead here.  Timing, hashing and resource
sampling belong to the external layer and are not embedded. -/
def perform_compression (numbers : List Int) : Except String PerformResult := do
  let input_string := joinComma numbers
  let fib_compressed ← compress_dataset numbers
  let fib_decompressed ← decompress_dataset fib_compressed numbers.length
  let is_lossless := decide (fib_decompressed = numbers)
  let fib_bits := fib_compressed.length
  let fib_bytes : Rat := (fib_bits : Rat) / 8
  let huffman_bits := (huffman_compress numbers).length
  let huffman_bytes : Rat := (huffman_bits : Rat) / 8
  let lzw_bits := (listStr (lzw_compress input_string)).length * 8
  let lzw_bytes : Rat := (lzw_bits : Rat) / 8
  let methods := [("Fibonacci", fib_bytes), ("Huffman", huffman_bytes),
    ("LZW", lzw_bytes)]
  let valid_methods := methods.filter fun p => decide (0 < p.2)
  let best_method :=
    match valid_methods with
    | [] => "Fibonacci"
    | v :: vs => (minPair v vs).1
  .ok { fib_bits := fib_bits, huffman_bits := huffman_bits,
        lzw_bits := lzw_bits, is_lossless := is_lossless,
        best_method := best_method }

/-! ## Lemmas about the Fibonacci codec -/

theorem fibSeq_add_two (n : Nat) : fibSeq (n + 2) = fibSeq n + fibSeq (n + 1) :=
  rfl

theorem one_le_fibSeq : ∀ j, j + 1 ≤ fibSeq j
  | 0 => by decide
  | 1 => by decide
  | j + 2 => by
    have h1 := one_le_fibSeq j
    have h2 := one_le_fibSeq (j + 1)
    rw [fibSeq_add_two]
    omega

theorem fibSeq_le_succ : ∀ j, fibSeq j ≤ fibSeq (j + 1)
  | 0 => by decide
  | j + 1 => by
    have := one_le_fibSeq j
    rw [fibSeq_add_two]
    omega

theorem genFibsle_spec : ∀ fuel i n : Nat,
    ∃ m, genFibsle fuel n (fibSeq i) (fibSeq (i + 1)) =
        (List.range m).map (fun j => fibSeq (i + j)) ∧
      m ≤ fuel ∧ (∀ j, j < m → fibSeq (i + j) ≤ n) ∧
      (m = fuel ∨ n < fibSeq (i + m)) := by
  intro fuel
  induction fuel with
  | zero =>
    intro i n
    exact ⟨0, by simp [genFibsle], by omega, by omega, Or.inl rfl⟩
  | succ f ih =>
    intro i n
    by_cases h : fibSeq i ≤ n
    · obtain ⟨m, hm, hmf, hle, hend⟩ := ih (i + 1) n
      refine ⟨m + 1, ?_, by omega, ?_, ?_⟩
      · have harg : fibSeq i + fibSeq (i + 1) = fibSeq (i + 1 + 1) := by
          rw [fibSeq_add_two]
        rw [genFibsle, if_pos h, harg, hm, List.range_succ_eq_map,
          List.map_cons, List.map_map]
        refine congrArg₂ List.cons (congrArg fibSeq (by omega)) ?_
        refine List.map_congr_left fun j _ => ?_
        simp only [Function.comp_apply]
        exact congrArg fibSeq (by omega)
      · intro j hj
        cases j with
        | zero => simpa using h
        | succ j' =>
          have := hle j' (by omega)
          have harg : i + 1 + j' = i + (j' + 1) := by omega
          rwa [harg] at this
      · rcases hend with h1 | h2
        · exact Or.inl (by omega)
        · right
          have harg : i + 1 + m = i + (m + 1) := by omega
          rwa [harg] at h2
    · refine ⟨0, ?_, by omega, by omega, Or.inr ?_⟩
      · rw [genFibsle, if_neg h]
        simp
      · simpa using Nat.lt_of_not_le h

theorem generate_fibs_spec (n : Nat) (h : 1 ≤ n) :
    ∃ m, generate_fibs n = (List.range m).map fibSeq ∧ 1 ≤ m ∧
      (∀ j, j < m → fibSeq j ≤ n) ∧ n < fibSeq m := by
  obtain ⟨m, hm, hmf, hle, hend⟩ := genFibsle_spec (n + 1) 0 n
  have hgen : generate_fibs n = (List.range m).map fibSeq := by
    rw [generate_fibs, if_neg (by omega)]
    exact hm.trans (List.map_congr_left fun j _ => congrArg fibSeq (by omega))
  have hend' : n < fibSeq m := by
    rcases hend with h1 | h2
    · exfalso
      have := hle n (by omega)
      have hgrow := one_le_fibSeq (0 + n)
      omega
    · simpa using h2
  have hm1 : 1 ≤ m := by
    rcases Nat.eq_zero_or_pos m with h0 | h1
    · exfalso
      have : fibSeq 0 = 1 := rfl
      rw [h0] at hend'
      omega
    · exact h1
  exact ⟨m, hgen, hm1, fun j hj => by simpa using hle j hj, hend'⟩

theorem descFibs_zero : descFibs 0 = [] := rfl

theorem descFibs_succ (m : Nat) :
    descFibs (m + 1) = fibSeq m :: descFibs m := by
  unfold descFibs
  rw [List.range_succ, List.map_append, List.reverse_append]
  simp

theorem descFibs_length (m : Nat) : (descFibs m).length = m := by
  simp [descFibs]

theorem zeckGreedy_length (fs : List Nat) : ∀ r, (zeckGreedy fs r).1.length = fs.length := by
  induction fs with
  | nil => intro r; rfl
  | cons f fs ih =>
    intro r
    by_cases h0 : 0 < r
    · by_cases hf : f ≤ r
      · simp only [zeckGreedy, if_pos h0, if_pos hf, List.length_cons]
        exact congrArg (· + 1) (ih (r - f))
      · simp only [zeckGreedy, if_pos h0, if_neg hf, List.length_cons]
        exact congrArg (· + 1) (ih r)
    · simp [zeckGreedy, if_neg h0]

theorem sumBits_replicate (k : Nat) : ∀ fs : List Nat, sumBits (List.replicate k '0') fs = 0 := by
  induction k with
  | zero => intro fs; cases fs <;> rfl
  | succ k ih =>
    intro fs
    cases fs with
    | nil => rfl
    | cons f fs => simp [List.replicate_succ, sumBits, ih]

theorem zeckGreedy_sum (fs : List Nat) : ∀ r, sumBits (zeckGreedy fs r).1 fs + (zeckGreedy fs r).2 = r := by
  induction fs with
  | nil => intro r; simp [zeckGreedy, sumBits]
  | cons f fs ih =>
    intro r
    by_cases h0 : 0 < r
    · by_cases hf : f ≤ r
      · have hrec := ih (r - f)
        simp only [zeckGreedy, if_pos h0, if_pos hf]
        simp [sumBits]
        omega
      · have hrec := ih r
        simp only [zeckGreedy, if_pos h0, if_neg hf]
        simp [sumBits]
        omega
    · simp only [zeckGreedy, if_neg h0]
      simp [sumBits_replicate]

theorem zeckGreedy_rem : ∀ m r, r < fibSeq m → (zeckGreedy (descFibs m) r).2 = 0 := by
  intro m
  induction m with
  | zero =>
    intro r hr
    have h1 : fibSeq 0 = 1 := rfl
    simp only [descFibs_zero, zeckGreedy]
    omega
  | succ m ih =>
    intro r hr
    rw [descFibs_succ]
    by_cases h0 : 0 < r
    · by_cases hf : fibSeq m ≤ r
      · simp only [zeckGreedy, if_pos h0, if_pos hf]
        apply ih
        cases m with
        | zero =>
          have h1 : fibSeq 0 = 1 := rfl
          have h2 : fibSeq (0 + 1) = 2 := rfl
          omega
        | succ m' =>
          have h2 : fibSeq (m' + 1 + 1) = fibSeq m' + fibSeq (m' + 1) :=
            fibSeq_add_two m'
          have h3 := fibSeq_le_succ m'
          omega
      · simp only [zeckGreedy, if_pos h0, if_neg hf]
        exact ih r (by omega)
    · simp only [zeckGreedy, if_neg h0]
      omega

theorem zeckGreedy_head_zero (m r : Nat) (hr : r < fibSeq m) :
    ∃ t, (zeckGreedy (descFibs (m + 1)) r).1 = '0' :: t := by
  rw [descFibs_succ]
  by_cases h0 : 0 < r
  · have hf : ¬ fibSeq m ≤ r := by omega
    refine ⟨(zeckGreedy (descFibs m) r).1, ?_⟩
    simp only [zeckGreedy, if_pos h0, if_neg hf]
  · refine ⟨List.replicate (descFibs m).length '0', ?_⟩
    simp [zeckGreedy, if_neg h0, List.replicate_succ]

theorem zeckGreedy_head_one (m r : Nat) (hf : fibSeq m ≤ r) :
    ∃ t, (zeckGreedy (descFibs (m + 1)) r).1 = '1' :: t := by
  have h0 : 0 < r := by
    have := one_le_fibSeq m
    omega
  rw [descFibs_succ]
  refine ⟨(zeckGreedy (descFibs m) (r - fibSeq m)).1, ?_⟩
  simp only [zeckGreedy, if_pos h0, if_pos hf]

theorem hasAdj11_cons_cons (a b : Char) (t : List Char) :
    hasAdj11 (a :: b :: t) =
      ((decide (a = '1') && decide (b = '1')) || hasAdj11 (b :: t)) := rfl

theorem hasAdj11_replicate : ∀ k, hasAdj11 (List.replicate k '0') = false
  | 0 => rfl
  | 1 => rfl
  | k + 2 => by
    have ih := hasAdj11_replicate (k + 1)
    rw [List.replicate_succ, List.replicate_succ, hasAdj11_cons_cons,
      ← List.replicate_succ]
    simp [ih]

theorem zeckGreedy_noAdj : ∀ m r, r < fibSeq m → hasAdj11 (zeckGreedy (descFibs m) r).1 = false := by
  intro m
  induction m with
  | zero =>
    intro r hr
    simp [descFibs_zero, zeckGreedy, hasAdj11]
  | succ m ih =>
    intro r hr
    by_cases h0 : 0 < r
    · by_cases hf : fibSeq m ≤ r
      · rw [descFibs_succ]
        simp only [zeckGreedy, if_pos h0, if_pos hf]
        cases m with
        | zero => simp [descFibs_zero, zeckGreedy, hasAdj11]
        | succ m' =>
          have hsub : r - fibSeq (m' + 1) < fibSeq m' := by
            have h2 : fibSeq (m' + 1 + 1) = fibSeq m' + fibSeq (m' + 1) :=
              fibSeq_add_two m'
            omega
          obtain ⟨t, ht⟩ := zeckGreedy_head_zero m' (r - fibSeq (m' + 1)) hsub
          have hrest : hasAdj11 (zeckGreedy (descFibs (m' + 1)) (r - fibSeq (m' + 1))).1 = false :=
            ih _ (lt_of_lt_of_le hsub (fibSeq_le_succ m'))
          rw [ht] at hrest
          rw [ht, hasAdj11_cons_cons]
          simp [hrest]
      · rw [descFibs_succ]
        simp only [zeckGreedy, if_pos h0, if_neg hf]
        have hrest := ih r (by omega)
        cases hbits : (zeckGreedy (descFibs m) r).1 with
        | nil => rfl
        | cons c t =>
          rw [hbits] at hrest
          rw [hasAdj11_cons_cons]
          simp [hrest]
    · rw [descFibs_succ]
      simp only [zeckGreedy, if_neg h0]
      exact hasAdj11_replicate _

theorem hasAdj11_append_last : ∀ (l : List Char) (x : Char),
    hasAdj11 (l ++ [x]) =
      (hasAdj11 l || (decide (l.getLast?.getD '0' = '1') && decide (x = '1')))
  | [], x => by simp [hasAdj11]
  | [c], x => by simp [hasAdj11, hasAdj11_cons_cons]
  | c1 :: c2 :: t, x => by
    have ih := hasAdj11_append_last (c2 :: t) x
    simp only [List.cons_append] at ih ⊢
    rw [hasAdj11_cons_cons, hasAdj11_cons_cons, ih]
    simp [Bool.or_assoc]

theorem hasAdj11_reverse : ∀ l : List Char, hasAdj11 l.reverse = hasAdj11 l := by
  intro l
  induction l with
  | nil => rfl
  | cons c t ih =>
    rw [List.reverse_cons, hasAdj11_append_last, ih, List.getLast?_reverse]
    cases t with
    | nil => simp [hasAdj11]
    | cons c2 t2 =>
      rw [hasAdj11_cons_cons]
      simp [Bool.or_comm, Bool.and_comm]

theorem sumBits_cons (c : Char) (cs : List Char) (f : Nat) (fs : List Nat) :
    sumBits (c :: cs) (f :: fs) = (if c = '1' then f else 0) + sumBits cs fs := rfl

theorem sumBits_append_one (xs : List Char) : ∀ (ys : List Nat) (c : Char) (f : Nat),
    xs.length = ys.length →
    sumBits (xs ++ [c]) (ys ++ [f]) = sumBits xs ys + (if c = '1' then f else 0) := by
  induction xs with
  | nil =>
    intro ys c f h
    have : ys = [] := List.eq_nil_of_length_eq_zero h.symm
    subst this
    by_cases hc : c = '1' <;> simp [sumBits, hc]
  | cons x xs ih =>
    intro ys c f h
    cases ys with
    | nil => simp at h
    | cons y ys =>
      rw [List.cons_append, List.cons_append, sumBits_cons, sumBits_cons,
        ih ys c f (by simpa using h)]
      omega

theorem sumBits_reverse (xs : List Char) : ∀ ys : List Nat, xs.length = ys.length →
    sumBits xs.reverse ys.reverse = sumBits xs ys := by
  induction xs with
  | nil =>
    intro ys h
    have : ys = [] := List.eq_nil_of_length_eq_zero h.symm
    subst this
    rfl
  | cons x xs ih =>
    intro ys h
    cases ys with
    | nil => simp at h
    | cons y ys =>
      have hlen : xs.length = ys.length := by simpa using h
      simp only [List.reverse_cons]
      rw [sumBits_append_one _ _ _ _ (by simpa using hlen), ih ys hlen,
        sumBits_cons]
      omega

theorem genFibsCount_spec : ∀ k i, genFibsCount k (fibSeq i) (fibSeq (i + 1)) =
    (List.range k).map fun j => fibSeq (i + j) := by
  intro k
  induction k with
  | zero => intro i; rfl
  | succ k ih =>
    intro i
    have harg : fibSeq i + fibSeq (i + 1) = fibSeq (i + 1 + 1) := by
      rw [fibSeq_add_two]
    rw [genFibsCount, harg, ih (i + 1), List.range_succ_eq_map, List.map_cons,
      List.map_map]
    refine congrArg₂ List.cons (congrArg fibSeq (by omega)) ?_
    refine List.map_congr_left fun j _ => ?_
    simp only [Function.comp_apply]
    exact congrArg fibSeq (by omega)

/-- Everything the round-trip and stream lemmas need about a single
successful `fib_encode` call: the codeword splits into a nonempty body
`s0` (ending in '1', free of adjacent '1' pairs) and the '1' terminator,
and `fib_decode` inverts it. -/
theorem fib_encode_parts (n : Int) (hn : 0 < n) :
    ∃ s0 : List Char,
      fib_encode n = .ok (s0 ++ ['1']) ∧
      s0 ≠ [] ∧
      hasAdj11 s0 = false ∧
      s0.getLast? = some '1' ∧
      fib_decode (s0 ++ ['1']) = .ok n := by
  have hn' : 1 ≤ n.toNat := by omega
  obtain ⟨m, hgen, hm1, hle, hlt⟩ := generate_fibs_spec n.toNat hn'
  obtain ⟨m', rfl⟩ : ∃ m', m = m' + 1 := ⟨m - 1, by omega⟩
  have hrev : (generate_fibs n.toNat).reverse = descFibs (m' + 1) := by
    rw [hgen]; rfl
  have hne : generate_fibs n.toNat ≠ [] := by
    rw [hgen]
    simp [List.range_succ]
  obtain ⟨t, ht⟩ := zeckGreedy_head_one m' n.toNat (hle m' (by omega))
  have hbits : (zeckGreedy (generate_fibs n.toNat).reverse n.toNat).1 = '1' :: t := by
    rw [hrev, ht]
  have hlen : ('1' :: t).length = m' + 1 := by
    rw [← ht, zeckGreedy_length, descFibs_length]
  refine ⟨('1' :: t).reverse, ?_, by simp, ?_, ?_, ?_⟩
  · simp only [fib_encode, if_neg (not_le.mpr hn)]
    simp only [if_neg hne, hbits]
  · rw [hasAdj11_reverse, ← ht]
    exact zeckGreedy_noAdj (m' + 1) n.toNat hlt
  · rw [List.getLast?_reverse]
    rfl
  · have htl : t.length = m' := by simpa using hlen
    have hlen2 : (('1' :: t).reverse ++ ['1']).length = m' + 2 := by
      simp [htl]
    have hrev2 : (('1' :: t).reverse ++ ['1']).reverse = '1' :: '1' :: t := by
      rw [List.reverse_append, List.reverse_reverse]
      rfl
    have hdl : (('1' :: t).reverse ++ ['1']).dropLast = ('1' :: t).reverse := by
      simp
    have hsum : sumBits ('1' :: t).reverse (descFibs (m' + 1)).reverse = n.toNat := by
      rw [sumBits_reverse _ _ (by rw [hlen, descFibs_length]), ← ht]
      have h1 := zeckGreedy_sum (descFibs (m' + 1)) n.toNat
      have h2 := zeckGreedy_rem (m' + 1) n.toNat hlt
      omega
    have hregen : genFibsCount (('1' :: t).reverse).length 1 2 =
        (descFibs (m' + 1)).reverse := by
      have h0 : (('1' :: t).reverse).length = m' + 1 := by simp [htl]
      rw [h0]
      have h1 := genFibsCount_spec (m' + 1) 0
      refine h1.trans ?_
      unfold descFibs
      rw [List.reverse_reverse]
      exact List.map_congr_left fun j _ => congrArg fibSeq (by omega)
    simp only [fib_decode, hdl]
    rw [if_neg (by rw [hlen2]; omega), if_neg (by rw [hrev2]; simp),
      if_neg (by simp), hregen, hsum]
    rw [Int.toNat_of_nonneg (le_of_lt hn)]

theorem splitCodeword_cons_cons (a b : Char) (l : List Char) :
    splitCodeword (a :: b :: l) =
      (if a = '1' ∧ b = '1' then some ([a, b], l)
       else (splitCodeword (b :: l)).map fun p => (a :: p.1, p.2)) := rfl

theorem splitCodeword_of_parts : ∀ (s0 rest : List Char), s0 ≠ [] →
    hasAdj11 s0 = false → s0.getLast? = some '1' →
    splitCodeword (s0 ++ '1' :: rest) = some (s0 ++ ['1'], rest) := by
  intro s0
  induction s0 with
  | nil => intro rest h; exact absurd rfl h
  | cons a t ih =>
    intro rest _ hadj hlast
    cases t with
    | nil =>
      have ha : a = '1' := by simpa using hlast
      subst ha
      rw [List.cons_append, List.nil_append, splitCodeword_cons_cons,
        if_pos ⟨rfl, rfl⟩]
      rfl
    | cons b t2 =>
      rw [hasAdj11_cons_cons] at hadj
      have h1 : ¬(a = '1' ∧ b = '1') := by
        rintro ⟨rfl, rfl⟩
        simp at hadj
      have h2 : hasAdj11 (b :: t2) = false := (Bool.or_eq_false_iff.mp hadj).2
      have hlast2 : (b :: t2).getLast? = some '1' := by
        rwa [List.getLast?_cons_cons] at hlast
      rw [List.cons_append, List.cons_append, splitCodeword_cons_cons]
      rw [if_neg h1, ← List.cons_append, ih rest (by simp) h2 hlast2]
      simp

theorem decompLoop_succ_cons (fuel : Nat) (a : Char) (l : List Char) :
    decompLoop (fuel + 1) (a :: l) =
      (match splitCodeword (a :: l) with
       | none => .error "Invalid compressed data: no terminator found"
       | some (cw, rest) => do
         let number ← fib_decode cw
         let numbers ← decompLoop fuel rest
         .ok (number :: numbers)) := rfl

/-- A compressed stream of positive integers decodes back to them:
`compressLoop` produces the concatenation of the codewords, and
`decompLoop` splits it back apart at the '11' terminators. -/
theorem fib_stream_roundtrip : ∀ ns : List Int, (∀ x ∈ ns, 0 < x) →
    ∃ s : List Char, compressLoop ns = .ok s ∧ ns.length ≤ s.length ∧
      ∀ fuel, ns.length ≤ fuel → decompLoop fuel s = .ok ns := by
  intro ns
  induction ns with
  | nil => exact fun _ => ⟨[], rfl, by simp, fun fuel _ => by cases fuel <;> rfl⟩
  | cons n ns ih =>
    intro hpos
    obtain ⟨s0, henc, hne0, hadj, hlast, hdec⟩ :=
      fib_encode_parts n (hpos n (by simp))
    obtain ⟨s, hcomp, hlen, hdecomp⟩ := ih fun x hx => hpos x (by simp [hx])
    have hn0 : ¬ n ≤ 0 := by
      have := hpos n (by simp)
      omega
    refine ⟨(s0 ++ ['1']) ++ s, ?_, ?_, ?_⟩
    · simp only [compressLoop, if_neg hn0, henc, hcomp]
      rfl
    · have h0 : 0 < s0.length := List.length_pos.mpr hne0
      simp only [List.length_append, List.length_cons]
      simp at hlen ⊢
      omega
    · intro fuel hfuel
      obtain ⟨f, rfl⟩ : ∃ f, fuel = f + 1 := ⟨fuel - 1, by simp at hfuel; omega⟩
      have hstream : (s0 ++ ['1']) ++ s = s0 ++ '1' :: s := by simp
      rw [hstream]
      obtain ⟨a, t0, rfl⟩ : ∃ a t0, s0 = a :: t0 := by
        cases s0 with
        | nil => exact absurd rfl hne0
        | cons a t0 => exact ⟨a, t0, rfl⟩
      rw [List.cons_append, decompLoop_succ_cons, ← List.cons_append]
      simp only [splitCodeword_of_parts _ s hne0 hadj hlast, hdec,
        hdecomp f (by simp at hfuel; omega)]
      rfl

theorem take_two_ne_of_hasAdj11_eq_false : ∀ l : List Char, hasAdj11 l = false →
    ∀ i, (l.drop i).take 2 ≠ ['1', '1'] := by
  intro l
  induction l with
  | nil => intro _ i; simp
  | cons c t ih =>
    intro hadj i
    cases i with
    | zero =>
      cases t with
      | nil => simp
      | cons c2 t2 =>
        rw [hasAdj11_cons_cons] at hadj
        have h1 : ¬(c = '1' ∧ c2 = '1') := by
          rintro ⟨rfl, rfl⟩
          simp at hadj
        intro h
        simp at h
        exact h1 ⟨h.1, h.2⟩
    | succ i =>
      have ht : hasAdj11 t = false := by
        cases t with
        | nil => rfl
        | cons c2 t2 =>
          rw [hasAdj11_cons_cons] at hadj
          exact (Bool.or_eq_false_iff.mp hadj).2
      simpa using ih ht i

/-- The position analysis behind C5: a stream of the form `w ++ "11"`, where
`w ++ "1"` has no adjacent '1' pair, contains the bigram "11" exactly at
position `w.length`. -/
theorem take_two_eleven (w : List Char) (hw : hasAdj11 (w ++ ['1']) = false) :
    ∀ i, (((w ++ ['1', '1']).drop i).take 2 = ['1', '1'] ↔ i = w.length) := by
  intro i
  constructor
  · intro h
    by_contra hne
    rcases Nat.lt_or_ge i w.length with hlt | hge
    · have hsplit : w ++ ['1', '1'] = (w ++ ['1']) ++ ['1'] := by simp
      rw [hsplit] at h
      have hilen : i ≤ (w ++ ['1']).length := by
        simp
        omega
      rw [List.drop_append_of_le_length hilen] at h
      have h2len : 2 ≤ ((w ++ ['1']).drop i).length := by
        simp
        omega
      rw [List.take_append_of_le_length h2len] at h
      exact take_two_ne_of_hasAdj11_eq_false (w ++ ['1']) hw i h
    · have hge' : w.length + 1 ≤ i := by omega
      have hlen : ((w ++ ['1', '1']).drop i).length ≤ 1 := by
        simp
        omega
      have : (((w ++ ['1', '1']).drop i).take 2).length ≤ 1 := by
        simp
        omega
      rw [h] at this
      simp at this
  · intro h
    subst h
    rw [List.drop_left]
    rfl

/-- C1: for every positive integer n, decoding the Fibonacci codeword
produced for n returns n: `fib_decode (fib_encode n) = n`. -/
theorem C1_fib_encode_decode_roundtrip (n : Int) (hn : 0 < n) :
    ∃ code, fib_encode n = .ok code ∧ fib_decode code = .ok n := by
  obtain ⟨s0, henc, _, _, _, hdec⟩ := fib_encode_parts n hn
  exact ⟨s0 ++ ['1'], henc, hdec⟩

theorem C1_witness :
    (0 : Int) < 100 ∧
      ∃ code, fib_encode 100 = .ok code ∧ fib_decode code = .ok 100 :=
  ⟨by decide, C1_fib_encode_decode_roundtrip 100 (by decide)⟩

/-- C5: for every positive integer n, the codeword `fib_encode n` contains
the bigram "11" exactly once, as its final two characters: the bigram
occurs at position i iff i + 2 is the length of the codeword. -/
theorem C5_terminator_is_only_adjacent_ones (n : Int) (hn : 0 < n) :
    ∃ code, fib_encode n = .ok code ∧ 2 ≤ code.length ∧
      ∀ i, ((code.drop i).take 2 = ['1', '1'] ↔ i + 2 = code.length) := by
  obtain ⟨s0, henc, hne0, hadj, hlast, _⟩ := fib_encode_parts n hn
  obtain ⟨w, rfl⟩ : ∃ w, s0 = w ++ ['1'] := by
    refine ⟨s0.dropLast, ?_⟩
    have h1 := List.dropLast_append_getLast hne0
    have h2 : s0.getLast hne0 = '1' := by
      have := List.getLast?_eq_getLast s0 hne0
      rw [hlast] at this
      exact (Option.some_inj.mp this.symm)
    rw [h2] at h1
    exact h1.symm
  have hcode : w ++ ['1'] ++ ['1'] = w ++ ['1', '1'] := by simp
  rw [hcode] at henc
  refine ⟨w ++ ['1', '1'], henc, by simp, ?_⟩
  intro i
  rw [take_two_eleven w hadj i]
  simp only [List.length_append, List.length_cons, List.length_nil]
  omega

theorem C5_witness :
    (0 : Int) < 12 ∧
      ∃ code, fib_encode 12 = .ok code ∧ 2 ≤ code.length ∧
        ∀ i, ((code.drop i).take 2 = ['1', '1'] ↔ i + 2 = code.length) :=
  ⟨by decide, C5_terminator_is_only_adjacent_ones 12 (by decide)⟩

/-- C2: compressing a non-empty list of positive integers and decompressing
the stream with the original length recovers the list exactly. -/
theorem C2_dataset_roundtrip (xs : List Int) (hne : xs ≠ [])
    (hpos : ∀ x ∈ xs, 0 < x) :
    ∃ s, compress_dataset xs = .ok s ∧
      decompress_dataset s xs.length = .ok xs := by
  obtain ⟨s, hcomp, hlen, hdecomp⟩ := fib_stream_roundtrip xs hpos
  refine ⟨s, ?_, ?_⟩
  · rw [compress_dataset, if_neg hne]
    exact hcomp
  · have hs : s ≠ [] := by
      intro h
      subst h
      have h1 : 0 < xs.length := List.length_pos.mpr hne
      have h2 : xs.length ≤ 0 := by simpa using hlen
      omega
    rw [decompress_dataset, if_neg hs]
    rw [hdecomp s.length hlen]
    simp only [Bind.bind, Except.bind]
    simp

theorem C2_witness :
    (([2, 7, 2] : List Int) ≠ [] ∧ ∀ x ∈ ([2, 7, 2] : List Int), 0 < x) ∧
      ∃ s, compress_dataset [2, 7, 2] = .ok s ∧
        decompress_dataset s ([2, 7, 2] : List Int).length = .ok [2, 7, 2] :=
  ⟨⟨by decide, by decide⟩,
    C2_dataset_roundtrip [2, 7, 2] (by decide) (by decide)⟩

/-- C7 as written is false: on the empty stream `decompress_dataset`
returns `[]` before any count validation, so with expected count 3 it
returns `.ok []` instead of failing with a count mismatch. -/
theorem C7_counterexample : decompress_dataset [] 3 = .ok [] := rfl

/-- C7 amended: for every NON-EMPTY stream the count check does run — a
successful `decompress_dataset` call returns exactly `count` numbers (a
decoded count differing from `count` raises the CountMismatch error). -/
theorem C7_amended_nonempty_count (s : List Char) (count : Nat) (hs : s ≠ [])
    (ns : List Int) (h : decompress_dataset s count = .ok ns) :
    ns.length = count := by
  rw [decompress_dataset, if_neg hs] at h
  cases hloop : decompLoop s.length s with
  | error e =>
    rw [hloop] at h
    simp [Bind.bind, Except.bind] at h
  | ok ms =>
    rw [hloop] at h
    simp only [Bind.bind, Except.bind] at h
    by_cases hc : ms.length = count
    · rw [if_pos hc] at h
      obtain rfl : ms = ns := by simpa using h
      exact hc
    · rw [if_neg hc] at h
      simp at h

theorem C7_witness :
    ((['1', '1'] : List Char) ≠ [] ∧
      decompress_dataset ['1', '1'] 1 = .ok [1]) ∧
      ([1] : List Int).length = 1 :=
  ⟨⟨by decide, rfl⟩, C7_amended_nonempty_count ['1', '1'] 1 (by decide) [1] rfl⟩

/-- C9 as written is false: `fib_encode` only rejects non-positive inputs;
a positive non-integer number is not rejected.  Run over the exact value
0.5 (a number, not an integer), the body of `fib_encode` succeeds and
returns the codeword "11". -/
theorem C9_counterexample : fib_encode_rat (mkRat 1 2) = .ok ['1', '1'] := rfl

/-- C9 amended: `fib_encode` fails with the InvalidInput error exactly on
non-positive inputs and succeeds on every positive integer; it has no
integrality check (that lives only in `compress_dataset`). -/
theorem C9_amended_nonpositive_only :
    (∀ n : Int, n ≤ 0 →
      fib_encode n = .error "Only positive integers can be encoded.") ∧
    (∀ n : Int, 0 < n → ∃ code, fib_encode n = .ok code) := by
  constructor
  · intro n hn
    rw [fib_encode, if_pos hn]
  · intro n hn
    rw [fib_encode, if_neg (not_le.mpr hn)]
    by_cases h : generate_fibs n.toNat = []
    · exact ⟨['1', '1'], by simp [h]⟩
    · exact ⟨(zeckGreedy (generate_fibs n.toNat).reverse n.toNat).1.reverse
        ++ ['1'], by simp [h]⟩

theorem C9_witness :
    fib_encode (-3) = .error "Only positive integers can be encoded." ∧
      ∃ code, fib_encode 5 = .ok code :=
  ⟨C9_amended_nonpositive_only.1 (-3) (by decide),
    C9_amended_nonpositive_only.2 5 (by decide)⟩

/-! ## Lemmas about the Huffman codec -/

theorem popMin_cons (x : HuffmanNode) (xs : List HuffmanNode) :
    popMin (x :: xs) =
      (match popMin xs with
       | none => some (x, [])
       | some (m, rest) =>
         if x.freq ≤ m.freq then some (x, xs) else some (m, x :: rest)) := rfl

theorem popMin_eq_none_iff : ∀ heap : List HuffmanNode,
    popMin heap = none ↔ heap = [] := by
  intro heap
  cases heap with
  | nil => simp [popMin]
  | cons x xs =>
    rw [popMin_cons]
    cases h : popMin xs with
    | none => simp
    | some p =>
      obtain ⟨m, rest⟩ := p
      by_cases hc : x.freq ≤ m.freq <;> simp [hc]

theorem popMin_perm : ∀ (heap : List HuffmanNode) (m : HuffmanNode)
    (rest : List HuffmanNode), popMin heap = some (m, rest) →
    heap.Perm (m :: rest) := by
  intro heap
  induction heap with
  | nil => intro m rest h; simp [popMin] at h
  | cons x xs ih =>
    intro m rest h
    rw [popMin_cons] at h
    cases hx : popMin xs with
    | none =>
      rw [hx] at h
      obtain rfl : xs = [] := (popMin_eq_none_iff xs).mp hx
      simp at h
      obtain ⟨rfl, rfl⟩ := h
      exact List.Perm.refl _
    | some p =>
      obtain ⟨m', rest'⟩ := p
      rw [hx] at h
      have h' : (if x.freq ≤ m'.freq then some (x, xs)
          else some (m', x :: rest')) = some (m, rest) := h
      by_cases hc : x.freq ≤ m'.freq
      · rw [if_pos hc] at h'
        simp at h'
        obtain ⟨rfl, rfl⟩ := h'
        exact List.Perm.refl _
      · rw [if_neg hc] at h'
        simp at h'
        obtain ⟨rfl, rfl⟩ := h'
        exact (List.Perm.cons x (ih m' rest' hx)).trans (List.Perm.swap m' x rest')

theorem popMin_isSome (heap : List HuffmanNode) (hne : heap ≠ []) :
    ∃ m rest, popMin heap = some (m, rest) := by
  cases h : popMin heap with
  | none => exact absurd ((popMin_eq_none_iff heap).mp h) hne
  | some p => exact ⟨p.1, p.2, rfl⟩

theorem popMin_length (heap : List HuffmanNode) (m : HuffmanNode)
    (rest : List HuffmanNode) (h : popMin heap = some (m, rest)) :
    heap.length = rest.length + 1 := by
  have := (popMin_perm heap m rest h).length_eq
  simpa using this

theorem buildLoop_two (fuel : Nat) (x y : HuffmanNode) (t : List HuffmanNode) :
    buildLoop (fuel + 1) (x :: y :: t) =
      (match popMin (x :: y :: t) with
       | none => none
       | some (l, heap₁) =>
         match popMin heap₁ with
         | none => none
         | some (r, heap₂) =>
           buildLoop fuel (heap₂ ++ [.node (l.freq + r.freq) l r])) := rfl

theorem buildLoop_spec : ∀ (fuel : Nat) (heap : List HuffmanNode),
    heap ≠ [] → heap.length ≤ fuel + 1 →
    ∃ t, buildLoop fuel heap = some t ∧ (leafVals t).Perm (heapVals heap) := by
  intro fuel
  induction fuel with
  | zero =>
    intro heap hne hlen
    obtain ⟨x, rfl⟩ : ∃ x, heap = [x] := by
      cases heap with
      | nil => exact absurd rfl hne
      | cons x xs =>
        cases xs with
        | nil => exact ⟨x, rfl⟩
        | cons y ys => simp at hlen
    exact ⟨x, rfl, by simp [heapVals]⟩
  | succ f ih =>
    intro heap hne hlen
    cases heap with
    | nil => exact absurd rfl hne
    | cons x xs =>
      cases xs with
      | nil => exact ⟨x, rfl, by simp [heapVals]⟩
      | cons y t =>
        obtain ⟨l, heap₁, hpop1⟩ := popMin_isSome (x :: y :: t) (by simp)
        have hperm1 := popMin_perm _ _ _ hpop1
        have hlen1 : heap₁.length = t.length + 1 := by
          have h0 := popMin_length _ _ _ hpop1
          simp at h0
          omega
        obtain ⟨r, heap₂, hpop2⟩ := popMin_isSome heap₁ (by
          intro hh
          rw [hh] at hlen1
          simp at hlen1)
        have hperm2 := popMin_perm _ _ _ hpop2
        have hlen2 : heap₁.length = heap₂.length + 1 := popMin_length _ _ _ hpop2
        have hrec : (heap₂ ++ [HuffmanNode.node (l.freq + r.freq) l r]) ≠ [] := by
          simp
        have hreclen : (heap₂ ++ [HuffmanNode.node (l.freq + r.freq) l r]).length ≤ f + 1 := by
          simp at hlen ⊢
          omega
        obtain ⟨tr, hbuild, hleaf⟩ := ih _ hrec hreclen
        refine ⟨tr, ?_, ?_⟩
        · simp only [buildLoop_two, hpop1, hpop2]
          exact hbuild
        · refine hleaf.trans ?_
          have h1 : heapVals (heap₂ ++ [HuffmanNode.node (l.freq + r.freq) l r])
              = heapVals heap₂ ++ (leafVals l ++ leafVals r) := by
            simp [heapVals, leafVals]
          rw [h1]
          have h2 : (heapVals heap₂ ++ (leafVals l ++ leafVals r)).Perm
              (leafVals l ++ (leafVals r ++ heapVals heap₂)) := by
            have := @List.perm_append_comm _ (heapVals heap₂)
              (leafVals l ++ leafVals r)
            simpa [List.append_assoc] using this
          refine h2.trans ?_
          have h3 : heapVals heap₁ = (heapVals ([r] ++ heap₂)) →
              True := fun _ => trivial
          have h4 : (heapVals (r :: heap₂)) = leafVals r ++ heapVals heap₂ := by
            simp [heapVals]
          have h5 : (leafVals l ++ (leafVals r ++ heapVals heap₂)).Perm
              (leafVals l ++ heapVals heap₁) := by
            refine List.Perm.append_left _ ?_
            rw [← h4]
            exact ((hperm2.map leafVals).flatten).symm
          refine h5.trans ?_
          have h6 : (leafVals l ++ heapVals heap₁) = heapVals (l :: heap₁) := by
            simp [heapVals]
          rw [h6]
          exact ((hperm1.map leafVals).flatten).symm

theorem cbIncomp_symm : ∀ e₁ e₂, cbIncomp e₁ e₂ → cbIncomp e₂ e₁ :=
  fun _ _ h => ⟨h.2, h.1⟩

theorem cb_aux_parts : ∀ (nd : HuffmanNode) (code : List Char), code ≠ [] →
    (∀ e ∈ build_codebook_aux nd code, ∃ p, e.2 = code ++ p) ∧
    (build_codebook_aux nd code).Pairwise cbIncomp := by
  intro nd
  induction nd with
  | leaf f v =>
    intro code hc
    constructor
    · intro e he
      simp [build_codebook_aux, if_neg hc] at he
      exact ⟨[], by simp [he]⟩
    · simp [build_codebook_aux, if_neg hc]
  | node f l r ihl ihr =>
    intro code hc
    obtain ⟨hl_shape, hl_pw⟩ := ihl (code ++ ['0']) (by simp)
    obtain ⟨hr_shape, hr_pw⟩ := ihr (code ++ ['1']) (by simp)
    constructor
    · intro e he
      rw [build_codebook_aux] at he
      rcases List.mem_append.mp he with h | h
      · obtain ⟨p, hp⟩ := hl_shape e h
        exact ⟨'0' :: p, by rw [hp, List.append_assoc]; rfl⟩
      · obtain ⟨p, hp⟩ := hr_shape e h
        exact ⟨'1' :: p, by rw [hp, List.append_assoc]; rfl⟩
    · rw [build_codebook_aux]
      rw [List.pairwise_append]
      refine ⟨hl_pw, hr_pw, ?_⟩
      intro e₁ h₁ e₂ h₂
      obtain ⟨p₁, hp₁⟩ := hl_shape e₁ h₁
      obtain ⟨p₂, hp₂⟩ := hr_shape e₂ h₂
      have hp₁' : e₁.2 = code ++ '0' :: p₁ := by
        rw [hp₁, List.append_assoc]
        rfl
      have hp₂' : e₂.2 = code ++ '1' :: p₂ := by
        rw [hp₂, List.append_assoc]
        rfl
      constructor
      · intro t ht
        rw [hp₁', hp₂', List.append_assoc] at ht
        have := List.append_cancel_left ht
        simp at this
      · intro t ht
        rw [hp₁', hp₂', List.append_assoc] at ht
        have := List.append_cancel_left ht
        simp at this

theorem build_codebook_aux_pairwise (root : HuffmanNode) :
    (build_codebook_aux root []).Pairwise cbIncomp := by
  cases root with
  | leaf f v => simp [build_codebook_aux]
  | node f l r =>
    rw [build_codebook_aux]
    obtain ⟨hl_shape, hl_pw⟩ := cb_aux_parts l (([] : List Char) ++ ['0']) (by simp)
    obtain ⟨hr_shape, hr_pw⟩ := cb_aux_parts r (([] : List Char) ++ ['1']) (by simp)
    rw [List.pairwise_append]
    refine ⟨by simpa using hl_pw, by simpa using hr_pw, ?_⟩
    intro e₁ h₁ e₂ h₂
    obtain ⟨p₁, hp₁⟩ := hl_shape e₁ (by simpa using h₁)
    obtain ⟨p₂, hp₂⟩ := hr_shape e₂ (by simpa using h₂)
    simp at hp₁ hp₂
    constructor
    · intro t ht
      rw [hp₁, hp₂] at ht
      simp at ht
    · intro t ht
      rw [hp₁, hp₂] at ht
      simp at ht

/-- C4: the codebook built from the Huffman tree of any non-empty frequency
table is prefix-free: no entry's code is a proper prefix (code followed by a
non-empty suffix) of another entry's code. -/
theorem C4_huffman_codebook_prefix_free (freqs : List (Int × Nat))
    (hne : freqs ≠ []) :
    ∀ p ∈ build_codebook (build_huffman_tree freqs),
    ∀ q ∈ build_codebook (build_huffman_tree freqs),
    ∀ t, t ≠ [] → q.2 ≠ p.2 ++ t := by
  have hheap : (freqs.map fun p => HuffmanNode.leaf p.2 p.1) ≠ [] := by
    simpa using hne
  have hlen : (freqs.map fun p => HuffmanNode.leaf p.2 p.1).length ≤
      freqs.length + 1 := by simp
  obtain ⟨root, hbuild, _⟩ := buildLoop_spec freqs.length _ hheap hlen
  have htree : build_huffman_tree freqs = some root := by
    rw [build_huffman_tree, if_neg hne]
    exact hbuild
  rw [htree]
  intro p hp q hq t ht
  have hpw := build_codebook_aux_pairwise root
  rw [build_codebook] at hp hq
  by_cases hpq : p = q
  · subst hpq
    intro habs
    have hlen2 : p.2.length = p.2.length + t.length := by
      conv_lhs => rw [habs]
      rw [List.length_append]
    have ht0 : t.length = 0 := by omega
    exact ht (List.length_eq_zero.mp ht0)
  · exact ((List.Pairwise.forall cbIncomp_symm hpw) hp hq hpq).1 t

theorem C4_witness :
    (([(5, 2), (6, 1), (7, 1)] : List (Int × Nat)) ≠ []) ∧
      ∀ p ∈ build_codebook (build_huffman_tree [(5, 2), (6, 1), (7, 1)]),
      ∀ q ∈ build_codebook (build_huffman_tree [(5, 2), (6, 1), (7, 1)]),
      ∀ t, t ≠ [] → q.2 ≠ p.2 ++ t :=
  ⟨by decide, C4_huffman_codebook_prefix_free [(5, 2), (6, 1), (7, 1)] (by decide)⟩

/-- C8 as written is false: `huffman_decompress` contains no raise at all.
When the bits are exhausted before `expected_count` symbols were emitted it
silently returns the shorter list: here one bit against a codebook whose
only code is "00" yields `[]` rather than an AmbiguousStream failure. -/
theorem C8_counterexample :
    huffman_decompress ['0'] [(['0', '0'], 5)] 1 = [] := rfl

theorem hdLoop_length_le (inv : List (List Char × Int)) (count : Nat) :
    ∀ (bits cur : List Char) (nums : List Int), nums.length < count →
    (hdLoop inv count bits cur nums).length ≤ count := by
  intro bits
  induction bits with
  | nil =>
    intro cur nums h
    simp only [hdLoop]
    omega
  | cons b bits ih =>
    intro cur nums h
    simp only [hdLoop]
    cases hg : invGet inv (cur ++ [b]) with
    | none =>
      simp only [hg]
      exact ih _ _ h
    | some v =>
      simp only [hg]
      by_cases hc : (nums ++ [v]).length = count
      · rw [if_pos hc]
        omega
      · rw [if_neg hc]
        apply ih
        have hlen : (nums ++ [v]).length = nums.length + 1 := by simp
        omega

/-- C8 amended: `huffman_decompress` never fails; for a positive expected
count it returns at most `count` symbols and, when the bits run out first,
silently returns the (possibly shorter) list decoded so far. -/
theorem C8_amended_silent_truncation (bits : List Char)
    (inv : List (List Char × Int)) (count : Nat) (hc : 0 < count) :
    (huffman_decompress bits inv count).length ≤ count := by
  rw [huffman_decompress]
  by_cases hb : bits = []
  · rw [if_pos hb]
    simp
  · rw [if_neg hb]
    exact hdLoop_length_le inv count bits [] [] (by simpa using hc)

theorem C8_witness :
    0 < 2 ∧ (huffman_decompress ['0', '1'] [(['0'], 7)] 2).length ≤ 2 :=
  ⟨by decide, C8_amended_silent_truncation ['0', '1'] [(['0'], 7)] 2 (by decide)⟩

theorem heapVals_leaves : ∀ freqs : List (Int × Nat),
    heapVals (freqs.map fun p => HuffmanNode.leaf p.2 p.1) = freqs.map Prod.fst := by
  intro freqs
  induction freqs with
  | nil => rfl
  | cons p t ih =>
    simp only [List.map_cons, heapVals, List.flatten_cons] at ih ⊢
    rw [ih]
    rfl

theorem cb_aux_fst : ∀ (nd : HuffmanNode) (code : List Char),
    (build_codebook_aux nd code).map Prod.fst = leafVals nd := by
  intro nd
  induction nd with
  | leaf f v => intro code; rfl
  | node f l r ihl ihr =>
    intro code
    rw [build_codebook_aux, List.map_append, ihl, ihr]
    rfl

theorem counter_keys_aux : ∀ (l : List Int) (acc : List (Int × Nat)) (x : Int),
    (x ∈ (l.foldl (fun acc x =>
      if acc.any fun p => decide (p.1 = x) then
        acc.map fun p => if p.1 = x then (p.1, p.2 + 1) else p
      else acc ++ [(x, 1)]) acc).map Prod.fst) ↔
    (x ∈ acc.map Prod.fst ∨ x ∈ l) := by
  intro l
  induction l with
  | nil => intro acc x; simp
  | cons y l ih =>
    intro acc x
    rw [List.foldl_cons, ih]
    by_cases hy : acc.any fun p => decide (p.1 = y)
    · rw [if_pos hy]
      have hkeys : ((acc.map fun p => if p.1 = y then (p.1, p.2 + 1) else p).map
          Prod.fst) = acc.map Prod.fst := by
        rw [List.map_map]
        refine List.map_congr_left fun p _ => ?_
        by_cases hp : p.1 = y <;> simp [hp]
      rw [hkeys]
      have hymem : y ∈ acc.map Prod.fst := by
        obtain ⟨p, hp, hpy⟩ := List.any_eq_true.mp hy
        exact List.mem_map.mpr ⟨p, hp, by simpa using hpy⟩
      constructor
      · rintro (h | h)
        · exact Or.inl h
        · exact Or.inr (by simp [h])
      · rintro (h | h)
        · exact Or.inl h
        · rcases List.mem_cons.mp h with rfl | h2
          · exact Or.inl hymem
          · exact Or.inr h2
    · rw [if_neg hy, List.map_append]
      simp only [List.mem_append, List.mem_cons, List.map_cons, List.map_nil,
        List.mem_singleton, List.not_mem_nil, or_false]
      tauto

theorem counter_keys (xs : List Int) (x : Int) :
    x ∈ xs ↔ x ∈ (counter xs).map Prod.fst := by
  have h := counter_keys_aux xs [] x
  simp only [List.map_nil, List.not_mem_nil, false_or] at h
  exact h.symm

theorem cbGet_mem (cb : List (Int × List Char)) (y : Int)
    (hy : y ∈ cb.map Prod.fst) : ∃ c, (y, c) ∈ cb ∧ cbGet cb y = c := by
  cases hf : cb.find? (fun p => decide (p.1 = y)) with
  | none =>
    exfalso
    rw [List.find?_eq_none] at hf
    obtain ⟨p, hp, hpy⟩ := List.mem_map.mp hy
    have := hf p hp
    simp [hpy] at this
  | some e =>
    have he_mem := List.mem_of_find?_eq_some hf
    have he1 : e.1 = y := by simpa using List.find?_some hf
    refine ⟨e.2, ?_, ?_⟩
    · have hey : (y, e.2) = e := by
        rw [← he1]
      rw [hey]
      exact he_mem
    · rw [cbGet, hf]

theorem invGet_exact : ∀ (cb : List (Int × List Char)),
    cb.Pairwise cbIncomp → ∀ (x : Int) (c : List Char), (x, c) ∈ cb →
    invGet (cb.map fun p => (p.2, p.1)) c = some x := by
  intro cb
  induction cb with
  | nil => intro _ x c hmem; simp at hmem
  | cons e cbt ih =>
    intro hpw x c hmem
    by_cases he : e.2 = c
    · have hx : e.1 = x := by
        rcases List.mem_cons.mp hmem with heq | hmem'
        · rw [← heq]
        · exfalso
          have hrel := (List.pairwise_cons.mp hpw).1 (x, c) hmem'
          exact hrel.1 [] (by simp [he])
      rw [invGet, List.map_cons, List.find?_cons_of_pos _ (by simpa using he)]
      simp [hx]
    · have hmem' : (x, c) ∈ cbt := by
        rcases List.mem_cons.mp hmem with heq | h2
        · exact absurd (by rw [← heq]) he
        · exact h2
      rw [invGet, List.map_cons, List.find?_cons_of_neg _ (by simpa using he)]
      exact ih (List.pairwise_cons.mp hpw).2 x c hmem'

theorem invGet_pre_none (cb : List (Int × List Char))
    (hpw : cb.Pairwise cbIncomp) (x : Int) (c pre t : List Char)
    (hmem : (x, c) ∈ cb) (ht : t ≠ []) (hc : c = pre ++ t) :
    invGet (cb.map fun p => (p.2, p.1)) pre = none := by
  have hnone : (cb.map fun p => (p.2, p.1)).find?
      (fun p => decide (p.1 = pre)) = none := by
    rw [List.find?_eq_none]
    rintro ⟨cc, vv⟩ hmm hpred
    simp only [decide_eq_true_eq] at hpred
    subst hpred
    obtain ⟨f, hf, hswap⟩ := List.mem_map.mp hmm
    have hf2 : f.2 = cc := congrArg Prod.fst hswap
    by_cases hfx : f = (x, c)
    · subst hfx
      simp only at hf2
      rw [← hf2] at hc
      have hlen3 : c.length = c.length + t.length := by
        conv_lhs => rw [hc]
        rw [List.length_append]
      have ht0 : t.length = 0 := by omega
      exact ht (List.length_eq_zero.mp ht0)
    · have hrel := List.Pairwise.forall cbIncomp_symm hpw hf hmem hfx
      exact hrel.1 t (by rw [hf2]; exact hc)
  rw [invGet, hnone]
  rfl

theorem hdLoop_nil (inv : List (List Char × Int)) (count : Nat)
    (cur : List Char) (nums : List Int) :
    hdLoop inv count [] cur nums = nums := rfl

theorem hdLoop_cons (inv : List (List Char × Int)) (count : Nat) (b : Char)
    (bits cur : List Char) (nums : List Int) :
    hdLoop inv count (b :: bits) cur nums =
      (match invGet inv (cur ++ [b]) with
       | some v =>
         if (nums ++ [v]).length = count then nums ++ [v]
         else hdLoop inv count bits [] (nums ++ [v])
       | none => hdLoop inv count bits (cur ++ [b]) nums) := rfl

theorem hdLoop_consume (cb : List (Int × List Char))
    (hpw : cb.Pairwise cbIncomp) (count : Nat) (x : Int) (c : List Char)
    (hmem : (x, c) ∈ cb) :
    ∀ (suf pre : List Char), pre ++ suf = c → suf ≠ [] →
    ∀ (rest : List Char) (nums : List Int),
    hdLoop (cb.map fun p => (p.2, p.1)) count (suf ++ rest) pre nums =
      (if (nums ++ [x]).length = count then nums ++ [x]
       else hdLoop (cb.map fun p => (p.2, p.1)) count rest [] (nums ++ [x])) := by
  intro suf
  induction suf with
  | nil => intro pre h hne; exact absurd rfl hne
  | cons b suf ih =>
    intro pre h _ rest nums
    rw [List.cons_append, hdLoop_cons]
    cases hsuf : suf with
    | nil =>
      subst hsuf
      have hfull : pre ++ [b] = c := by simpa using h
      rw [hfull, invGet_exact cb hpw x c hmem]
      rfl
    | cons b2 suf2 =>
      subst hsuf
      have hpre : c = (pre ++ [b]) ++ (b2 :: suf2) := by
        rw [← h]
        simp [List.append_assoc]
      rw [invGet_pre_none cb hpw x c (pre ++ [b]) (b2 :: suf2) hmem
        (by simp) hpre]
      exact ih (pre ++ [b]) (by rw [← h]; simp) (by simp) rest nums

theorem hdLoop_stream (cb : List (Int × List Char))
    (hpw : cb.Pairwise cbIncomp) (count : Nat) :
    ∀ (ys nums : List Int),
    (∀ y ∈ ys, ∃ c, (y, c) ∈ cb ∧ cbGet cb y = c ∧ c ≠ []) →
    nums.length + ys.length = count →
    hdLoop (cb.map fun p => (p.2, p.1)) count
      ((ys.map (cbGet cb)).flatten) [] nums = nums ++ ys := by
  intro ys
  induction ys with
  | nil =>
    intro nums _ hcount
    simp [hdLoop_nil]
  | cons y ys ih =>
    intro nums hcb hcount
    obtain ⟨c, hmem, hget, hcne⟩ := hcb y (by simp)
    rw [List.map_cons, List.flatten_cons, hget]
    rw [hdLoop_consume cb hpw count y c hmem c [] (by simp) hcne]
    cases ys with
    | nil =>
      have heq : (nums ++ [y]).length = count := by
        simp at hcount ⊢
        omega
      rw [if_pos heq]
    | cons y2 ys2 =>
      have hne2 : (nums ++ [y]).length ≠ count := by
        simp at hcount ⊢
        omega
      rw [if_neg hne2]
      rw [ih (nums ++ [y]) (fun z hz => hcb z (by simp [hz]))
        (by simp at hcount ⊢; omega)]
      simp

/-- C10 (implicit): the Huffman codec round-trips.  For every non-empty
integer sequence with at least two distinct values, decompressing
`huffman_compress xs` with the inverse of the codebook derived from xs's
frequency table and the sequence length recovers xs exactly. -/
theorem C10_huffman_roundtrip (xs : List Int) (hne : xs ≠ [])
    (hdist : 2 ≤ (counter xs).length) :
    huffman_decompress (huffman_compress xs)
      ((build_codebook (build_huffman_tree (counter xs))).map
        fun p => (p.2, p.1))
      xs.length = xs := by
  have hfne : counter xs ≠ [] := by
    intro h
    rw [h] at hdist
    simp at hdist
  have hheap : ((counter xs).map fun p => HuffmanNode.leaf p.2 p.1) ≠ [] := by
    simpa using hfne
  obtain ⟨root, hbuild, hperm⟩ :=
    buildLoop_spec (counter xs).length _ hheap (by simp)
  have htree : build_huffman_tree (counter xs) = some root := by
    rw [build_huffman_tree, if_neg hfne]
    exact hbuild
  rw [heapVals_leaves] at hperm
  obtain ⟨fr, l, r, rfl⟩ : ∃ fr l r, root = HuffmanNode.node fr l r := by
    cases root with
    | leaf f v =>
      exfalso
      have h1 := hperm.length_eq
      simp [leafVals] at h1
      omega
    | node fr l r => exact ⟨fr, l, r, rfl⟩
  have hpw := build_codebook_aux_pairwise (HuffmanNode.node fr l r)
  have hvals := cb_aux_fst (HuffmanNode.node fr l r) ([] : List Char)
  have hcodes : ∀ e ∈ build_codebook_aux (HuffmanNode.node fr l r) [],
      e.2 ≠ [] := by
    intro e he
    rw [build_codebook_aux] at he
    rcases List.mem_append.mp he with h | h
    · obtain ⟨p, hp⟩ := (cb_aux_parts l (([] : List Char) ++ ['0'])
        (by simp)).1 e h
      rw [hp]
      simp
    · obtain ⟨p, hp⟩ := (cb_aux_parts r (([] : List Char) ++ ['1'])
        (by simp)).1 e h
      rw [hp]
      simp
  have hsym : ∀ y ∈ xs, ∃ c,
      (y, c) ∈ build_codebook_aux (HuffmanNode.node fr l r) [] ∧
      cbGet (build_codebook_aux (HuffmanNode.node fr l r) []) y = c ∧
      c ≠ [] := by
    intro y hy
    have hk : y ∈ (counter xs).map Prod.fst := (counter_keys xs y).mp hy
    have hkcb : y ∈ (build_codebook_aux (HuffmanNode.node fr l r) []).map
        Prod.fst := by
      rw [hvals]
      exact hperm.mem_iff.mpr hk
    obtain ⟨c, hmem, hget⟩ :=
      cbGet_mem (build_codebook_aux (HuffmanNode.node fr l r) []) y hkcb
    exact ⟨c, hmem, hget, hcodes (y, c) hmem⟩
  have hcomp : huffman_compress xs =
      ((xs.map (cbGet (build_codebook_aux (HuffmanNode.node fr l r) []))).flatten) := by
    rw [huffman_compress, if_neg hne, if_neg (by omega)]
    rw [htree]
    rfl
  obtain ⟨x0, xs0, rfl⟩ : ∃ x0 xs0, xs = x0 :: xs0 := by
    cases xs with
    | nil => exact absurd rfl hne
    | cons x0 xs0 => exact ⟨x0, xs0, rfl⟩
  obtain ⟨c0, hmem0, hget0, hcne0⟩ := hsym x0 (by simp)
  have hcompne :
      (((x0 :: xs0).map
        (cbGet (build_codebook_aux (HuffmanNode.node fr l r) []))).flatten)
        ≠ [] := by
    rw [List.map_cons, List.flatten_cons, hget0]
    simp [hcne0]
  rw [hcomp, htree]
  have hcbeq : build_codebook (some (HuffmanNode.node fr l r)) =
      build_codebook_aux (HuffmanNode.node fr l r) [] := rfl
  rw [hcbeq, huffman_decompress, if_neg hcompne]
  have := hdLoop_stream (build_codebook_aux (HuffmanNode.node fr l r) []) hpw
    (x0 :: xs0).length (x0 :: xs0) [] hsym (by simp)
  rw [this]
  rfl

theorem C10_witness :
    (([1, 2, 2] : List Int) ≠ [] ∧ 2 ≤ (counter [1, 2, 2]).length) ∧
      huffman_decompress (huffman_compress [1, 2, 2])
        ((build_codebook (build_huffman_tree (counter [1, 2, 2]))).map
          fun p => (p.2, p.1))
        ([1, 2, 2] : List Int).length = [1, 2, 2] :=
  ⟨⟨by decide, by decide⟩, C10_huffman_roundtrip [1, 2, 2] (by decide) (by decide)⟩

/-! ## Lemmas about the LZW codec -/

theorem char_toNat_ofNat (i : Nat) (h : i < 256) : (Char.ofNat i).toNat = i := by
  have hv : Nat.isValidChar i := Or.inl (by omega)
  rw [Char.ofNat, dif_pos hv]
  simp [Char.ofNatAux, Char.toNat, UInt32.toNat, BitVec.toNat_ofNatLt]

theorem find_first_of_nodup {α β : Type} [DecidableEq α] :
    ∀ (l : List (α × β)), (l.map Prod.fst).Nodup → ∀ (k : α) (v : β),
    (k, v) ∈ l → l.find? (fun p => decide (p.1 = k)) = some (k, v) := by
  intro l
  induction l with
  | nil => intro _ k v hmem; simp at hmem
  | cons e t ih =>
    intro hnd k v hmem
    have hnd' : e.1 ∉ t.map Prod.fst ∧ (t.map Prod.fst).Nodup := by
      rw [List.map_cons, List.nodup_cons] at hnd
      exact hnd
    by_cases he : e.1 = k
    · rcases List.mem_cons.mp hmem with heq | hmem'
      · rw [List.find?_cons_of_pos _ (by simp [he]), ← heq]
      · exfalso
        have hk : k ∈ t.map Prod.fst := List.mem_map.mpr ⟨(k, v), hmem', rfl⟩
        have hnotin := hnd'.1
        rw [he] at hnotin
        exact hnotin hk
    · have hmem' : (k, v) ∈ t := by
        rcases List.mem_cons.mp hmem with heq | h2
        · exact absurd (by rw [← heq]) he
        · exact h2
      rw [List.find?_cons_of_neg _ (by simp [he])]
      exact ih hnd'.2 k v hmem'

theorem lzwDecGet_eq (d : List (Nat × List Char))
    (hnd : (d.map Prod.fst).Nodup) (k : Nat) (v : List Char)
    (hmem : (k, v) ∈ d) : lzwDecGet d k = v := by
  rw [lzwDecGet, find_first_of_nodup d hnd k v hmem]

theorem lzwDecMem_true (d : List (Nat × List Char)) (k : Nat) (v : List Char)
    (hmem : (k, v) ∈ d) : lzwDecMem d k = true := by
  rw [lzwDecMem, List.any_eq_true]
  exact ⟨(k, v), hmem, by simp⟩

theorem lzwDecMem_false (d : List (Nat × List Char)) (k : Nat)
    (hk : k ∉ d.map Prod.fst) : lzwDecMem d k = false := by
  rw [lzwDecMem, List.any_eq_false]
  intro p hp
  simp only [decide_eq_true_eq]
  intro habs
  exact hk (List.mem_map.mpr ⟨p, hp, habs⟩)

theorem lzwGet_mem_self (d : List (List Char × Nat)) (w : List Char)
    (hw : w ∈ d.map Prod.fst) : (w, lzwGet d w) ∈ d := by
  cases hf : d.find? (fun p => decide (p.1 = w)) with
  | none =>
    exfalso
    rw [List.find?_eq_none] at hf
    obtain ⟨p, hp, hpw⟩ := List.mem_map.mp hw
    have := hf p hp
    simp [hpw] at this
  | some e =>
    have he1 : e.1 = w := by simpa using List.find?_some hf
    have hmem := List.mem_of_find?_eq_some hf
    rw [lzwGet, hf]
    have hew : (w, e.2) = e := by rw [← he1]
    rw [hew]
    exact hmem

theorem lzwMem_true_iff (d : List (List Char × Nat)) (k : List Char) :
    lzwMem d k = true ↔ k ∈ d.map Prod.fst := by
  rw [lzwMem, List.any_eq_true]
  constructor
  · rintro ⟨p, hp, hpk⟩
    exact List.mem_map.mpr ⟨p, hp, by simpa using hpk⟩
  · intro h
    obtain ⟨p, hp, hpk⟩ := List.mem_map.mp h
    exact ⟨p, hp, by simp [hpk]⟩

theorem headD_append_one (w : List Char) (c d : Char) (hw : w ≠ []) :
    (w ++ [c]).headD d = w.headD d := by
  cases w with
  | nil => exact absurd rfl hw
  | cons a t => rfl

theorem lzwLoop_nil (dict : List (List Char × Nat)) (next : Nat)
    (current : List Char) :
    lzwLoop dict next current [] =
      (if current = [] then [] else [lzwGet dict current]) := rfl

theorem lzwLoop_cons (dict : List (List Char × Nat)) (next : Nat)
    (current : List Char) (ch : Char) (rest : List Char) :
    lzwLoop dict next current (ch :: rest) =
      (if lzwMem dict (current ++ [ch]) then
        lzwLoop dict next (current ++ [ch]) rest
      else
        lzwGet dict current ::
          lzwLoop (dict ++ [(current ++ [ch], next)]) (next + 1) [ch] rest) := rfl

theorem lzwDecLoop_nil (dict : List (Nat × List Char)) (next : Nat)
    (current : List Char) : lzwDecLoop dict next current [] = .ok [] := rfl

theorem lzwDecLoop_cons (dict : List (Nat × List Char)) (next : Nat)
    (current : List Char) (code : Nat) (codes : List Nat) :
    lzwDecLoop dict next current (code :: codes) =
      (match (if lzwDecMem dict code then Except.ok (lzwDecGet dict code)
              else if code = next then
                Except.ok (current ++ [current.headD 'a'])
              else Except.error "Invalid LZW code") with
       | .error e => .error e
       | .ok entry =>
         (lzwDecLoop (dict ++ [(next, current ++ [entry.headD 'a'])])
           (next + 1) entry codes).map (entry :: ·)) := rfl

theorem lzwBase_mem (ch : Char) (h : ch.toNat < 256) :
    ([ch], ch.toNat) ∈ lzwBase := by
  rw [lzwBase]
  refine List.mem_map.mpr ⟨ch.toNat, by simpa using h, ?_⟩
  rw [Char.ofNat_toNat]

theorem lzwDecBase_mem (k : Nat) (h : k < 256) :
    (k, [Char.ofNat k]) ∈ lzwDecBase := by
  rw [lzwDecBase]
  exact List.mem_map.mpr ⟨k, by simpa using h, rfl⟩

theorem lzwDecBase_fst : lzwDecBase.map Prod.fst = List.range 256 := by
  rw [lzwDecBase, List.map_map]
  have h : (List.range 256).map (Prod.fst ∘ fun i : Nat => (i, [Char.ofNat i]))
      = (List.range 256).map id := List.map_congr_left fun i _ => rfl
  rw [h, List.map_id]

theorem lzwDecBase_swap :
    lzwDecBase.map (fun p => (p.2, p.1)) = lzwBase := by
  rw [lzwDecBase, List.map_map, lzwBase]
  exact List.map_congr_left fun i _ => rfl

theorem lzwBase_fst_nodup : (lzwBase.map Prod.fst).Nodup := by
  rw [lzwBase, List.map_map]
  refine List.Nodup.map_on ?_ (List.nodup_range 256)
  intro x hx y hy hxy
  simp only [Function.comp_apply, List.mem_range] at hx hy hxy
  have h1 : (Char.ofNat x).toNat = (Char.ofNat y).toNat := by
    rw [List.cons.injEq] at hxy
    rw [hxy.1]
  rw [char_toNat_ofNat x hx, char_toNat_ofNat y hy] at h1
  exact h1

theorem lzwMem_base_two (l : List Char) (hl : l.length = 2) :
    lzwMem lzwBase l = false := by
  rw [lzwMem, List.any_eq_false]
  intro p hp
  rw [lzwBase] at hp
  obtain ⟨i, _, rfl⟩ := List.mem_map.mp hp
  simp only [decide_eq_true_eq]
  intro habs
  rw [← habs] at hl
  simp at hl

/-- The LZW synchronization invariant: whenever the encoder holds dictionary
`De`, next code `nd + 1` and current pattern `w`, while the decoder has
processed all previously emitted codes, holding dictionary `Dd`, next code
`nd` and previous entry `prev`, the encoder dictionary is exactly the
swapped decoder dictionary plus the one entry the decoder has not learned
yet — and then the decoder turns the remaining emitted codes back into
`w ++ cs`. -/
theorem lzw_sync : ∀ (cs : List Char) (De : List (List Char × Nat))
    (Dd : List (Nat × List Char)) (nd : Nat) (w prev : List Char),
    De = Dd.map (fun p => (p.2, p.1)) ++ [(prev ++ [w.headD 'a'], nd)] →
    Dd.map Prod.fst = List.range nd →
    w ≠ [] → prev ≠ [] →
    w ∈ De.map Prod.fst →
    (∀ ch : Char, ch.toNat < 256 → ([ch], ch.toNat) ∈ De) →
    (∀ ch ∈ cs, ch.toNat < 256) →
    ∃ pats, lzwDecLoop Dd nd prev (lzwLoop De (nd + 1) w cs) = .ok pats ∧
      pats.flatten = w ++ cs := by
  intro cs
  induction cs with
  | nil =>
    intro De Dd nd w prev hJ1 hJ2 hw hprev hwmem hbase hcs
    rw [lzwLoop_nil, if_neg hw]
    have hk_mem : (w, lzwGet De w) ∈ De := lzwGet_mem_self De w hwmem
    obtain ⟨k, hk⟩ : ∃ k, lzwGet De w = k := ⟨_, rfl⟩
    rw [hk, hJ1] at hk_mem
    refine ⟨[w], ?_, by simp⟩
    rw [hk]
    rcases List.mem_append.mp hk_mem with hin | hextra
    · obtain ⟨p, hp, hswap⟩ := List.mem_map.mp hin
      have hp1 : p.1 = k := congrArg Prod.snd hswap
      have hp2 : p.2 = w := congrArg Prod.fst hswap
      have hpmem : (k, w) ∈ Dd := by
        have hpe : (k, w) = p := by rw [← hp1, ← hp2]
        rw [hpe]
        exact hp
      have hDnd : (Dd.map Prod.fst).Nodup := by
        rw [hJ2]
        exact List.nodup_range nd
      rw [lzwDecLoop_cons, if_pos (lzwDecMem_true Dd _ _ hpmem),
        lzwDecGet_eq Dd hDnd _ _ hpmem]
      rfl
    · simp only [List.mem_singleton] at hextra
      have hw_eq : w = prev ++ [w.headD 'a'] := congrArg Prod.fst hextra
      have hk_eq : k = nd := congrArg Prod.snd hextra
      have hnotmem : lzwDecMem Dd nd = false := by
        refine lzwDecMem_false Dd nd ?_
        rw [hJ2]
        simp
      have hentry : prev ++ [prev.headD 'a'] = w := by
        have hh : w.headD 'a' = prev.headD 'a' := by
          conv_lhs => rw [hw_eq]
          exact headD_append_one prev _ _ hprev
        rw [← hh]
        exact hw_eq.symm
      rw [lzwDecLoop_cons, hk_eq, if_neg (by rw [hnotmem]; simp), if_pos rfl,
        hentry]
      rfl
  | cons ch cs ih =>
    intro De Dd nd w prev hJ1 hJ2 hw hprev hwmem hbase hcs
    rw [lzwLoop_cons]
    by_cases hmem : lzwMem De (w ++ [ch]) = true
    · rw [if_pos hmem]
      have hJ1' : De = Dd.map (fun p => (p.2, p.1)) ++
          [(prev ++ [(w ++ [ch]).headD 'a'], nd)] := by
        rw [headD_append_one w ch 'a' hw]
        exact hJ1
      obtain ⟨pats, hdec, hflat⟩ := ih De Dd nd (w ++ [ch]) prev hJ1' hJ2
        (by simp) hprev ((lzwMem_true_iff De _).mp hmem) hbase
        (fun c hc => hcs c (by simp [hc]))
      refine ⟨pats, hdec, ?_⟩
      rw [hflat]
      simp
    · rw [if_neg hmem]
      have hch : ch.toNat < 256 := hcs ch (by simp)
      have hJ1' : De ++ [(w ++ [ch], nd + 1)] =
          (Dd ++ [(nd, prev ++ [w.headD 'a'])]).map (fun p => (p.2, p.1)) ++
            [(w ++ [([ch] : List Char).headD 'a'], nd + 1)] := by
        rw [List.map_append, hJ1, List.append_assoc]
        simp
      have hJ2' : (Dd ++ [(nd, prev ++ [w.headD 'a'])]).map Prod.fst =
          List.range (nd + 1) := by
        rw [List.map_append, hJ2, List.range_succ]
        rfl
      have hwmem' : [ch] ∈ (De ++ [(w ++ [ch], nd + 1)]).map Prod.fst :=
        List.mem_map.mpr ⟨([ch], ch.toNat),
          List.mem_append_left _ (hbase ch hch), rfl⟩
      have hbase' : ∀ c : Char, c.toNat < 256 →
          ([c], c.toNat) ∈ De ++ [(w ++ [ch], nd + 1)] :=
        fun c hc => List.mem_append_left _ (hbase c hc)
      obtain ⟨pats, hdec, hflat⟩ := ih (De ++ [(w ++ [ch], nd + 1)])
        (Dd ++ [(nd, prev ++ [w.headD 'a'])]) (nd + 1) [ch] w
        hJ1' hJ2' (by simp) hw hwmem' hbase'
        (fun c hc => hcs c (by simp [hc]))
      refine ⟨w :: pats, ?_, ?_⟩
      · have hk_mem : (w, lzwGet De w) ∈ De := lzwGet_mem_self De w hwmem
        obtain ⟨k, hk⟩ : ∃ k, lzwGet De w = k := ⟨_, rfl⟩
        rw [hk, hJ1] at hk_mem
        rw [hk]
        rcases List.mem_append.mp hk_mem with hin | hextra
        · obtain ⟨p, hp, hswap⟩ := List.mem_map.mp hin
          have hp1 : p.1 = k := congrArg Prod.snd hswap
          have hp2 : p.2 = w := congrArg Prod.fst hswap
          have hpmem : (k, w) ∈ Dd := by
            have hpe : (k, w) = p := by rw [← hp1, ← hp2]
            rw [hpe]
            exact hp
          have hDnd : (Dd.map Prod.fst).Nodup := by
            rw [hJ2]
            exact List.nodup_range nd
          rw [lzwDecLoop_cons, if_pos (lzwDecMem_true Dd _ _ hpmem),
            lzwDecGet_eq Dd hDnd _ _ hpmem]
          show (lzwDecLoop (Dd ++ [(nd, prev ++ [w.headD 'a'])]) (nd + 1) w
            (lzwLoop (De ++ [(w ++ [ch], nd + 1)]) (nd + 1 + 1) [ch] cs)).map
              (w :: ·) = .ok (w :: pats)
          rw [hdec]
          rfl
        · simp only [List.mem_singleton] at hextra
          have hw_eq : w = prev ++ [w.headD 'a'] := congrArg Prod.fst hextra
          have hk_eq : k = nd := congrArg Prod.snd hextra
          have hnotmem : lzwDecMem Dd nd = false := by
            refine lzwDecMem_false Dd nd ?_
            rw [hJ2]
            simp
          have hentry : prev ++ [prev.headD 'a'] = w := by
            have hh : w.headD 'a' = prev.headD 'a' := by
              conv_lhs => rw [hw_eq]
              exact headD_append_one prev _ _ hprev
            rw [← hh]
            exact hw_eq.symm
          rw [lzwDecLoop_cons, hk_eq, if_neg (by rw [hnotmem]; simp),
            if_pos rfl, hentry]
          show (lzwDecLoop (Dd ++ [(nd, prev ++ [w.headD 'a'])]) (nd + 1) w
            (lzwLoop (De ++ [(w ++ [ch], nd + 1)]) (nd + 1 + 1) [ch] cs)).map
              (w :: ·) = .ok (w :: pats)
          rw [hdec]
          rfl
      · rw [List.flatten_cons, hflat]
        rfl

theorem lzw_decompress_cons (k : Nat) (rest : List Nat) :
    lzw_decompress (k :: rest) =
      (lzwDecLoop lzwDecBase 256 (lzwDecGet lzwDecBase k) rest).map
        fun entries => ((lzwDecGet lzwDecBase k) :: entries).flatten := rfl

/-- C3: LZW decompression inverts LZW compression for every string over the
256-character base alphabet (including streams that trigger the
self-reference decode rule, which is the `code = next_code` branch covered
by the synchronization invariant). -/
theorem C3_lzw_roundtrip (s : List Char) (hs : ∀ c ∈ s, c.toNat < 256) :
    lzw_decompress (lzw_compress s) = .ok s := by
  cases s with
  | nil => rfl
  | cons c cs =>
    have hc : c.toNat < 256 := hs c (by simp)
    have hbase_c : ([c], c.toNat) ∈ lzwBase := lzwBase_mem c hc
    have hmem1 : lzwMem lzwBase (([] : List Char) ++ [c]) = true :=
      (lzwMem_true_iff lzwBase [c]).mpr
        (List.mem_map.mpr ⟨([c], c.toNat), hbase_c, rfl⟩)
    have hget1 : lzwGet lzwBase (([] : List Char) ++ [c]) = c.toNat := by
      show lzwGet lzwBase [c] = c.toNat
      rw [lzwGet,
        find_first_of_nodup lzwBase lzwBase_fst_nodup ([c]) c.toNat hbase_c]
    have hdnd : (lzwDecBase.map Prod.fst).Nodup := by
      rw [lzwDecBase_fst]
      exact List.nodup_range 256
    have hdget : lzwDecGet lzwDecBase c.toNat = [c] := by
      rw [lzwDecGet_eq lzwDecBase hdnd c.toNat [Char.ofNat c.toNat]
        (lzwDecBase_mem c.toNat hc), Char.ofNat_toNat]
    rw [lzw_compress, if_neg (by simp), lzwLoop_cons, if_pos hmem1]
    cases cs with
    | nil =>
      rw [lzwLoop_nil, if_neg (by simp), hget1, lzw_decompress_cons,
        lzwDecLoop_nil, hdget]
      rfl
    | cons c2 cs2 =>
      have hc2 : c2.toNat < 256 := hs c2 (by simp)
      rw [lzwLoop_cons]
      have hnm : lzwMem lzwBase ((([] : List Char) ++ [c]) ++ [c2]) = false :=
        lzwMem_base_two _ (by simp)
      rw [if_neg (by rw [hnm]; simp), hget1, lzw_decompress_cons, hdget]
      have hJ1 : lzwBase ++ [((([] : List Char) ++ [c]) ++ [c2], 256)] =
          lzwDecBase.map (fun p => (p.2, p.1)) ++
            [([c] ++ [([c2] : List Char).headD 'a'], 256)] := by
        rw [lzwDecBase_swap]
        rfl
      obtain ⟨pats, hdec, hflat⟩ := lzw_sync cs2
        (lzwBase ++ [((([] : List Char) ++ [c]) ++ [c2], 256)]) lzwDecBase 256
        [c2] [c] hJ1 lzwDecBase_fst (by simp) (by simp)
        (List.mem_map.mpr ⟨([c2], c2.toNat),
          List.mem_append_left _ (lzwBase_mem c2 hc2), rfl⟩)
        (fun ch hch => List.mem_append_left _ (lzwBase_mem ch hch))
        (fun ch hch => hs ch (by simp [hch]))
      rw [hdec]
      simp only [Except.map]
      rw [List.flatten_cons, hflat]
      rfl

theorem C3_witness :
    (∀ c ∈ "ABABABA".data, c.toNat < 256) ∧
      lzw_decompress (lzw_compress "ABABABA".data) = .ok "ABABABA".data :=
  ⟨by decide, C3_lzw_roundtrip "ABABABA".data (by decide)⟩

/-! ## Lemmas about the comparative-analysis slice -/

theorem fib_encode_isOk (n : Int) (hn : 0 < n) :
    ∃ code, fib_encode n = .ok code := by
  rw [fib_encode, if_neg (not_le.mpr hn)]
  by_cases h : generate_fibs n.toNat = []
  · exact ⟨['1', '1'], by simp [h]⟩
  · exact ⟨(zeckGreedy (generate_fibs n.toNat).reverse n.toNat).1.reverse
      ++ ['1'], by simp [h]⟩

theorem compressLoop_error (ns : List Int) :
    (∃ x ∈ ns, x ≤ 0) → ∃ e, compressLoop ns = .error e := by
  induction ns with
  | nil =>
    rintro ⟨x, hx, _⟩
    simp at hx
  | cons n rest ih =>
    rintro ⟨x, hx, hxle⟩
    by_cases hn : n ≤ 0
    · exact ⟨"Invalid number in dataset. Only positive integers supported.",
        by simp only [compressLoop, if_pos hn]⟩
    · have hx' : x ∈ rest := by
        rcases List.mem_cons.mp hx with rfl | h
        · exact absurd hxle hn
        · exact h
      obtain ⟨e, he⟩ := ih ⟨x, hx', hxle⟩
      obtain ⟨code, hcode⟩ := fib_encode_isOk n (by omega)
      refine ⟨e, ?_⟩
      simp only [compressLoop, if_neg hn, hcode, he]
      rfl

/-- C6 as written is false: `perform_compression` wraps only the Huffman and
the LZW sections in `try/except`.  The Fibonacci calls are unguarded, so on
an input where the Fibonacci codec raises (here a non-positive element) the
whole comparison aborts with that error instead of excluding Fibonacci and
completing. -/
theorem C6_counterexample : perform_compression [0] =
    .error "Invalid number in dataset. Only positive integers supported." := rfl

/-- C6 amended: failure isolation holds only for the Huffman and LZW codecs
(their sections are guarded and a failure there yields size 0), not for
Fibonacci: every input on which the Fibonacci codec raises makes
`perform_compression` abort with an error and produce no comparison. -/
theorem C6_amended_fibonacci_not_isolated (numbers : List Int)
    (h : ∃ x ∈ numbers, x ≤ 0) :
    ∃ e, perform_compression numbers = .error e := by
  have hne : numbers ≠ [] := by
    rintro rfl
    obtain ⟨x, hx, _⟩ := h
    simp at hx
  obtain ⟨e, he⟩ := compressLoop_error numbers h
  refine ⟨e, ?_⟩
  simp only [perform_compression, compress_dataset, if_neg hne, he]
  rfl

theorem C6_witness :
    (∃ x ∈ ([-2] : List Int), x ≤ 0) ∧
      ∃ e, perform_compression [-2] = .error e :=
  ⟨⟨-2, by simp, by decide⟩,
    C6_amended_fibonacci_not_isolated [-2] ⟨-2, by simp, by decide⟩⟩

end KaosFibo

-- Concrete evaluations of the embedded code against the repository's
-- documented examples (the source's own test table lists a wrong code for
-- 100 and a wrong LZW code list for "ABABABA"; the values below are the
-- ones the code actually produces).
example : KaosFibo.fib_encode 1 = .ok ['1', '1'] := rfl
example : KaosFibo.fib_encode 4 = .ok ['1', '0', '1', '1'] := rfl
example : KaosFibo.fib_encode 100 =
    .ok ['0', '0', '1', '0', '1', '0', '0', '0', '0', '1', '1'] := rfl
example : KaosFibo.fib_decode ['1', '0', '1', '1'] = .ok 4 := rfl
example : KaosFibo.compress_dataset [1, 2, 3] =
    .ok ['1', '1', '0', '1', '1', '0', '0', '1', '1'] := rfl
example : KaosFibo.decompress_dataset
    ['1', '1', '0', '1', '1', '0', '0', '1', '1'] 3 = .ok [1, 2, 3] := rfl
example : KaosFibo.decompress_dataset [] 3 = .ok [] := rfl
example : KaosFibo.fib_encode_rat (mkRat 1 2) = .ok ['1', '1'] := rfl
example : KaosFibo.lzw_compress "ABABABA".data = [65, 66, 256, 258] := by decide
example : KaosFibo.lzw_decompress [65, 66, 256, 258] = .ok "ABABABA".data := rfl
example : KaosFibo.huffman_compress [1, 2, 2, 3, 3] ≠ [] := by decide
example : KaosFibo.counter [1, 2, 2, 3, 3, 3] = [(1, 1), (2, 2), (3, 3)] := rfl
example :
    KaosFibo.huffman_decompress ['0'] [(['0', '0'], 5)] 1 = [] := rfl
example : (KaosFibo.perform_compression [0]).isOk = false := rfl
example : KaosFibo.listStr [65, 256] = "[65, 256]".data := rfl
